import Mathlib

/-!
# Verification of the basic-block reordering pass (bb-reorder.c)

This file shallowly embeds the parts of `src/gcc/bb-reorder.c` needed to
settle the claims about the pass: the hot/cold partition classification and
crossing-edge marking, the two partition fix-up phases
(`add_labels_and_missing_jumps`, `fix_up_fall_thru_edges`), the two entry
points, and the pure decision functions of the trace builder and trace
connector (`push_to_next_round_p`, `bb_to_key`, `better_edge_p`, the
loop-closure decision of `find_traces_1_round`, the duplication branch of
`connect_traces`, and the count-threshold computation of `find_traces`).

Machine integers are modelled as `Int`; C integer division (truncation
toward zero) is `Int.tdiv`.  External collaborators that the pass only
calls (profile queries, `invert_jump`, `force_nonfallthru`, instruction
emission) are modelled from the spec as oracles or boolean fields, each
marked in its doc comment.
-/

/-- Hot/cold section assignment of a basic block (`bb->partition`,
values `HOT_PARTITION` / `COLD_PARTITION`). -/
inductive Partition where
  | hot
  | cold
deriving DecidableEq, Repr

/-- A basic block, restricted to the fields of `basic_block` /
`reorder_block_def` that the modelled code reads or writes.  A block is
identified by its position in the `CFG.blocks` list (its dense `index`).
`probablyNeverExecuted` records the answer of the external profile query
`probably_never_executed_bb_p` for this block; `endsInJump` records
whether `JUMP_P (BB_END (bb))` holds; `jumpTarget` is the block the
final jump targets (when one is known to the model); `rbiNext` is
`bb->rbi->next`; `footerBarrier` records that a barrier was detached
into `bb->rbi->footer`. -/
structure Block where
  partition : Partition
  probablyNeverExecuted : Bool
  endsInJump : Bool
  jumpTarget : Option Nat
  rbiNext : Option Nat
  footerBarrier : Bool
deriving DecidableEq, Repr

/-- A control-flow edge.  `src` is the index of a real basic block (edges
out of the ENTRY sentinel never appear in a real block's successor list,
so they are not represented).  `dest = none` stands for the EXIT
sentinel.  `fallthru` is the `EDGE_FALLTHRU` flag bit and `crossing` is
`e->crossing_edge`. -/
structure Edge where
  src : Nat
  dest : Option Nat
  fallthru : Bool
  crossing : Bool
deriving DecidableEq, Repr

/-- A control-flow graph: the list of real basic blocks (in `next_bb`
chain order) and the list of edges.  An edge keeps its position in
`edges` through the pass, which models the stable identity of the
`edge` structure in the source. -/
structure CFG where
  blocks : List Block
  edges : List Edge
deriving DecidableEq, Repr

/-- Partition of the block with index `i` (`none` when out of range). -/
def partAt (c : CFG) (i : Nat) : Option Partition :=
  (c.blocks[i]?).map (·.partition)

/-- The successor list of block `b`: the edges whose `src` is `b`,
paired with their positions in `c.edges`, in list order (this is the
`bb->succ` chain). -/
def succPairs (c : CFG) (b : Nat) : List (Nat × Edge) :=
  c.edges.enum.filter (fun p => p.2.src == b)

/-- Number of successor edges of block `b`. -/
def succCount (c : CFG) (b : Nat) : Nat :=
  (succPairs c b).length

/-- First phase of
`find_rarely_executed_basic_blocks_and_crossing_edges` (bb-reorder.c
lines 1259-1265): classify every block as COLD when
`probably_never_executed_bb_p` holds, HOT otherwise. -/
def assignPartitions (c : CFG) : CFG :=
  { c with blocks := c.blocks.map fun b =>
      { b with partition := if b.probablyNeverExecuted then Partition.cold else Partition.hot } }

/-- The crossing condition of bb-reorder.c lines 1273-1275: the source is
never ENTRY (it is a real block by construction), the destination is not
EXIT, and the two endpoints have different partitions. -/
def crossingCond (c : CFG) (e : Edge) : Bool :=
  match e.dest with
  | some d => partAt c e.src != partAt c d
  | none => false

/-- Second phase of
`find_rarely_executed_basic_blocks_and_crossing_edges` (lines
1269-1288): write the `crossing_edge` flag of every successor edge of
every basic block.  `FOR_EACH_BB` visits each real block once and each
edge lies in exactly one successor list, so the per-block loop is a map
over the edges whose source index is in range. -/
def markCrossing (c : CFG) : CFG :=
  { c with edges := c.edges.map fun e =>
      if e.src < c.blocks.length then { e with crossing := crossingCond c e } else e }

/-- The crossing-edge ids collected into the `crossing_edges` buffer, in
the source's visitation order (by block, then successor list order). -/
def collectCrossing (c : CFG) : List Nat :=
  ((List.range c.blocks.length).map fun b =>
    ((succPairs c b).filter (fun p => crossingCond c p.2)).map (·.1)).flatten

/-- `find_rarely_executed_basic_blocks_and_crossing_edges`
(bb-reorder.c lines 1248-1291): assign partitions, then mark every
edge's crossing flag and collect the crossing edges. -/
def find_rarely_executed_basic_blocks_and_crossing_edges (c : CFG) :
    CFG × List Nat :=
  let c1 := assignPartitions c
  (markCrossing c1, collectCrossing c1)

/-- All edge endpoints refer to blocks of the graph. -/
def Ranged (c : CFG) : Prop :=
  ∀ e ∈ c.edges, e.src < c.blocks.length ∧
    ∀ d, e.dest = some d → d < c.blocks.length

instance (c : CFG) : Decidable (Ranged c) := by
  unfold Ranged; infer_instance

/-- One iteration of the loop of `add_labels_and_missing_jumps`
(bb-reorder.c lines 1346-1393) on crossing edge id `i`.  When the edge's
source does not end in a jump and has exactly one successor, an
unconditional jump to the destination's label and a barrier are emitted
(`endsInJump`, `jumpTarget`, `footerBarrier`) and the edge's FALLTHRU
flag is cleared; a fall-through source with more than one successor hits
the `abort ()` of line 1387, modelled as `Except.error`.  The label
emission itself (`block_label`, `LABEL_NUSES`) has no observable effect
on the modelled fields. -/
def add_labels_step (c : CFG) (i : Nat) : Except Unit CFG :=
  match c.edges[i]? with
  | none => Except.ok c
  | some e =>
    match e.dest with
    | none => Except.ok c
    | some d =>
      match c.blocks[e.src]? with
      | none => Except.ok c
      | some b =>
        if b.endsInJump then Except.ok c
        else if succCount c e.src == 1 then
          Except.ok { c with
            blocks := c.blocks.set e.src
              { b with endsInJump := true, jumpTarget := some d, footerBarrier := true },
            edges := c.edges.set i { e with fallthru := false } }
        else Except.error ()

/-- `add_labels_and_missing_jumps` (bb-reorder.c lines 1336-1394): walk
the collected crossing edges, fixing each fall-through source. -/
def add_labels_and_missing_jumps (c : CFG) (ids : List Nat) : Except Unit CFG :=
  ids.foldlM add_labels_step c

/-- The invert-attempt of `fix_up_fall_thru_edges` (bb-reorder.c lines
1460-1494): the conditional jump edge is inverted when it exists, does
not cross, its destination is a real block equal to the source's
`rbi->next`, and the external `invert_jump` succeeds (`invertOk`). -/
def invert_candidate (invertOk : Nat → Bool) (cur : Block) (b : Nat)
    (cj? : Option (Nat × Edge)) : Option (Nat × Edge) :=
  match cj? with
  | some cp =>
    if cp.2.crossing then none
    else
      match cp.2.dest with
      | some cd =>
        if cur.rbiNext == some cd && invertOk b then some cp else none
      | none => none
  | none => none

/-- The body of one `fix_up_fall_thru_edges` iteration once the
fall-through edge `fp` (and the other successor `cj?`, the conditional
jump edge) of block `b` have been found: bb-reorder.c lines 1445-1531.
See `fix_up_step` for the oracles. -/
def fix_up_core (invertOk forceNull : Nat → Bool) (c : CFG) (b : Nat)
    (cur : Block) (fp : Nat × Edge) (cj? : Option (Nat × Edge)) : CFG :=
  match fp.2.dest with
  | none => c          -- fall_thru->dest == EXIT_BLOCK_PTR: skipped
  | some _ =>
    if fp.2.crossing then
      -- lines 1460-1493: try to invert the conditional jump
      match invert_candidate invertOk cur b cj? with
      | some cp =>
        { c with edges :=
            ((c.edges.set fp.1 { fp.2 with fallthru := false, crossing := true }).set
              cp.1 { cp.2 with fallthru := true, crossing := false }) }
      | none =>
        -- lines 1496-1531: force_nonfallthru
        if forceNull b then
          { c with
            blocks := c.blocks.set b { cur with footerBarrier := true },
            edges := c.edges.set fp.1 { fp.2 with fallthru := false } }
        else
          let nb := c.blocks.length
          { c with
            blocks := (c.blocks.set b { cur with rbiNext := some nb }) ++
              [{ partition := cur.partition,
                 probablyNeverExecuted := cur.probablyNeverExecuted,
                 endsInJump := true,
                 jumpTarget := fp.2.dest,
                 rbiNext := cur.rbiNext,
                 footerBarrier := true }],
            edges := (c.edges.set fp.1
                { fp.2 with src := nb, fallthru := false, crossing := true }) ++
              [{ src := b, dest := some nb, fallthru := true, crossing := false }] }
    else c

/-- One iteration of `FOR_EACH_BB` in `fix_up_fall_thru_edges`
(bb-reorder.c lines 1421-1534) on block `b`.

`invertOk b` is the success of the external `invert_jump` on the jump
ending `b` (modelled from the spec, it may fail); `forceNull b` tells
whether the external `force_nonfallthru` returns NULL (no new block was
needed: the fall-through was broken in place, which clears the edge's
FALLTHRU flag).  When `force_nonfallthru` does create a block, the
modelled contract (from the spec and the source's comment at lines
1396-1403) is: the new block is a jump-only block to the old
fall-through destination, the old edge is redirected to leave from the
new block with FALLTHRU cleared, and a fresh FALLTHRU edge from `b` to
the new block is added; the caller then puts the new block into `b`'s
partition, splices it after `b` in layout order, marks its successor
edge crossing, and detaches a barrier into its footer. -/
def fix_up_step (invertOk forceNull : Nat → Bool) (c : CFG) (b : Nat) : CFG :=
  match c.blocks[b]? with
  | none => c
  | some cur =>
    -- succ1 / succ2 and the fall-through search of lines 1424-1443:
    -- the fall-through edge is looked for among the first two successor
    -- edges only, the other of the two being the conditional jump edge
    match (succPairs c b)[0]?, (succPairs c b)[1]? with
    | some p1, os2 =>
      if p1.2.fallthru then fix_up_core invertOk forceNull c b cur p1 os2
      else
        match os2 with
        | some p2 =>
          if p2.2.fallthru then
            fix_up_core invertOk forceNull c b cur p2 (some p1)
          else c
        | none => c
    | none, _ => c

/-- `fix_up_fall_thru_edges` (bb-reorder.c lines 1405-1535): visit every
basic block in layout order.  Blocks created during the walk by
`force_nonfallthru` have a single non-FALLTHRU successor, so visiting
them is a no-op; iterating over the blocks present at entry is
equivalent. -/
def fix_up_fall_thru_edges (invertOk forceNull : Nat → Bool) (c : CFG) : CFG :=
  (List.range c.blocks.length).foldl (fix_up_step invertOk forceNull) c

/-- `fix_edges_for_rarely_executed_code` (bb-reorder.c lines 1874-1909),
restricted to the first two mandatory phases; the later phases
(`fix_crossing_conditional_branches`, `fix_crossing_unconditional_branches`,
`add_reg_crossing_jump_notes`) are abstracted as `fixBranches`, which
runs after them. -/
def fix_edges_for_rarely_executed_code (invertOk forceNull : Nat → Bool)
    (fixBranches : CFG → CFG) (c : CFG) (ids : List Nat) : Except Unit CFG := do
  let c1 ← add_labels_and_missing_jumps c ids
  pure (fixBranches (fix_up_fall_thru_edges invertOk forceNull c1))

/-- Modelled from the spec: `cfg_layout_initialize` (external, §5 of the
spec) allocates a zeroed `rbi` structure for every block, so the
layout-owned fields start cleared; it does not touch partitions or edge
flags. -/
def cfg_layout_init (c : CFG) : CFG :=
  { c with blocks := c.blocks.map fun b =>
      { b with rbiNext := none, footerBarrier := false } }

/-- bb-reorder.c lines 2005-2008 of `partition_hot_cold_basic_blocks`:
chain `rbi->next` along the natural block order (`next_bb`); the last
real block, whose `next_bb` is EXIT (negative index), is left alone. -/
def setRbiNextChain (c : CFG) : CFG :=
  { c with blocks := c.blocks.enum.map fun p =>
      if p.1 + 1 < c.blocks.length then { p.2 with rbiNext := some (p.1 + 1) } else p.2 }

/-- The mutable state an entry point starts from: the CFG and the answer
of the target hook `cannot_modify_jumps_p` (external, query-only).
`n_basic_blocks` is the number of real blocks, `blocks.length`. -/
structure PassState where
  cfg : CFG
  cannotModifyJumps : Bool
deriving DecidableEq, Repr

/-- `partition_hot_cold_basic_blocks` (bb-reorder.c lines 1990-2020):
return unchanged when `n_basic_blocks <= 1`; otherwise enter layout
mode, chain `rbi->next`, classify blocks and collect crossing edges, and
fix the crossing edges when there are any.  `cfg_layout_finalize` is
external and only rewrites the instruction chain from the layout fields,
none of which is modelled, so it is the identity here.  Note that, unlike
`reorder_basic_blocks`, this entry point never consults
`cannot_modify_jumps_p`. -/
def partition_hot_cold_basic_blocks (invertOk forceNull : Nat → Bool)
    (fixBranches : CFG → CFG) (s : PassState) : Except Unit PassState :=
  if s.cfg.blocks.length ≤ 1 then Except.ok s
  else do
    let c0 := setRbiNextChain (cfg_layout_init s.cfg)
    let (c1, ids) := find_rarely_executed_basic_blocks_and_crossing_edges c0
    let c2 ←
      if ids.length > 0 then
        fix_edges_for_rarely_executed_code invertOk forceNull fixBranches c1 ids
      else pure c1
    Except.ok { s with cfg := c2 }

/-- `reorder_basic_blocks` (bb-reorder.c lines 1914-1966): return
unchanged when `n_basic_blocks <= 1` or when the target reports
`cannot_modify_jumps_p`; otherwise run the trace builder and connector,
abstracted here as `body` (wrapped in layout mode). -/
def reorder_basic_blocks (body : CFG → CFG) (s : PassState) : PassState :=
  if s.cfg.blocks.length ≤ 1 then s
  else if s.cannotModifyJumps then s
  else { s with cfg := body (cfg_layout_init s.cfg) }

/-- `REG_BR_PROB_BASE` (rtl.h, external constant): the probability
scale. -/
def REG_BR_PROB_BASE : Int := 10000

/-- `BB_FREQ_MAX` (basic-block.h, external constant): the block
frequency scale. -/
def BB_FREQ_MAX : Int := 10000

/-- `INT_MAX` of the 32-bit `int` type. -/
def INT_MAX : Int := 2147483647

/-- Modelled from the spec: `EDGE_FREQUENCY (e)` (basic-block.h,
external macro) is the rounded product of the source block's frequency
and the edge probability,
`(src->frequency * e->probability + REG_BR_PROB_BASE / 2) / REG_BR_PROB_BASE`. -/
def EDGE_FREQUENCY (srcFreq prob : Int) : Int :=
  Int.tdiv (srcFreq * prob + Int.tdiv REG_BR_PROB_BASE 2) REG_BR_PROB_BASE

/-- `push_to_next_round_p` (bb-reorder.c lines 193-215).  The globals
and block fields it reads are passed explicitly:
`flagReorder` is `flag_reorder_blocks_and_partition`, `partition` is
`bb->partition`, `frequency`/`count` are `bb->frequency`/`bb->count`,
`probNever` is `probably_never_executed_bb_p (bb)`. -/
def push_to_next_round_p (flagReorder : Bool) (partition : Partition)
    (frequency count : Int) (probNever : Bool)
    (round number_of_rounds : Int) (exec_th count_th : Int) : Bool :=
  let there_exists_another_round := round < number_of_rounds - 1
  let cold_block := flagReorder && partition == Partition.cold
  let block_not_hot_enough :=
    frequency < exec_th || count < count_th || probNever
  if there_exists_another_round && (cold_block || block_not_hot_enough) then true
  else false

/-- The fields of a predecessor edge read by `bb_to_key`:
whether its source is the ENTRY sentinel, the source's
`bbd[...].end_of_trace`, the `EDGE_DFS_BACK` flag bit, and the source
frequency and edge probability from which `EDGE_FREQUENCY` is
computed. -/
structure PredEdge where
  srcIsEntry : Bool
  srcEndOfTrace : Int
  dfsBack : Bool
  srcFrequency : Int
  probability : Int
deriving DecidableEq, Repr

/-- `bb_to_key` (bb-reorder.c lines 795-825). -/
def bb_to_key (partition : Partition) (probNever : Bool)
    (preds : List PredEdge) (frequency : Int) : Int :=
  if partition == Partition.cold || probNever then BB_FREQ_MAX
  else
    let priority := preds.foldl
      (fun pr e =>
        if (!e.srcIsEntry && e.srcEndOfTrace >= 0) || e.dfsBack then
          let edge_freq := EDGE_FREQUENCY e.srcFrequency e.probability
          if edge_freq > pr then edge_freq else pr
        else pr) 0
    if priority ≠ 0 then -(100 * BB_FREQ_MAX + 100 * priority + frequency)
    else -frequency

/-- The priority as the claim words it: the maximum `EDGE_FREQUENCY`
over the predecessor edges whose source is an end-of-trace block or
whose flags include `DFS_BACK` (and 0 when no such edge exists). -/
def claimPriority (preds : List PredEdge) : Int :=
  ((preds.filter fun e => (!e.srcIsEntry && e.srcEndOfTrace >= 0) || e.dfsBack).map
    fun e => EDGE_FREQUENCY e.srcFrequency e.probability).foldl max 0

/-- `better_edge_p` (bb-reorder.c lines 834-878).  `destPrevIsBb` is
`e->dest->prev_bb == bb`; `curBestExists` is `cur_best_edge != NULL`;
`curBestCrossing` / `eCrossing` are the `crossing_edge` flags. -/
def better_edge_p (flagReorder : Bool) (prob freq best_prob best_freq : Int)
    (destPrevIsBb curBestExists curBestCrossing eCrossing : Bool) : Bool :=
  let diff_prob := Int.tdiv best_prob 10
  let diff_freq := Int.tdiv best_freq 10
  let is_better_edge :=
    if prob > best_prob + diff_prob then true
    else if prob < best_prob - diff_prob then false
    else if freq < best_freq - diff_freq then true
    else if freq > best_freq + diff_freq then false
    else if destPrevIsBb then true
    else false
  if !is_better_edge && flagReorder && curBestExists && curBestCrossing
      && !eCrossing then true
  else is_better_edge

/-- The probability/frequency band logic of `better_edge_p` as the spec
words it (10% slack bands, lower-frequency destination wins inside the
probability band, CFG-adjacent destination wins inside both bands),
without the partitioning override. -/
def bandDecision (prob freq best_prob best_freq : Int)
    (destPrevIsBb : Bool) : Bool :=
  if prob > best_prob + Int.tdiv best_prob 10 then true
  else if prob < best_prob - Int.tdiv best_prob 10 then false
  else if freq < best_freq - Int.tdiv best_freq 10 then true
  else if freq > best_freq + Int.tdiv best_freq 10 then false
  else destPrevIsBb

/-- The partitioning override of `better_edge_p` (lines 867-875): when
partitioning, a non-crossing edge always beats a crossing current
best. -/
def crossingOverride (flagReorder curBestExists curBestCrossing eCrossing : Bool) : Bool :=
  flagReorder && curBestExists && curBestCrossing && !eCrossing

/-- What `find_traces_1_round` does when the chosen best edge closes a
loop in the current trace (bb-reorder.c lines 604-653). -/
inductive LoopOutcome where
  | rotated
  | duplicated
  | terminated
deriving DecidableEq, Repr

/-- The loop-closure decision of `find_traces_1_round` (bb-reorder.c
lines 604-653), entered when `best_edge->dest->rbi->visited == *n_traces`.
`selfLoop` is `best_edge->dest == bb`; `srcFreq`/`prob` determine
`EDGE_FREQUENCY (best_edge)`; `destFreq` is `best_edge->dest->frequency`;
`destIsFirst` is `best_edge->dest == ENTRY_BLOCK_PTR->next_bb`;
`anotherEdge` is the existence of an outgoing edge of `bb` other than
`best_edge`; `copyOk` is `copy_bb_p (best_edge->dest, !optimize_size)`
(the external instruction-length probe makes `copy_bb_p` an oracle
here).  Every branch of the source region ends in `break`: the trace
terminates in all cases, and the outcome records which rewriting, if
any, happened first. -/
def loop_closure (selfLoop : Bool) (srcFreq prob destFreq : Int)
    (destIsFirst anotherEdge copyOk : Bool) : LoopOutcome :=
  if selfLoop then LoopOutcome.terminated
  else if EDGE_FREQUENCY srcFreq prob > Int.tdiv (4 * destFreq) 5 then
    if !destIsFirst then LoopOutcome.rotated else LoopOutcome.terminated
  else if !anotherEdge && copyOk then LoopOutcome.duplicated
  else LoopOutcome.terminated

/-- The fields of an edge read by the trace-connection search of
`connect_traces`: the destination (`none` = EXIT), the
`EDGE_CAN_FALLTHRU` and `EDGE_COMPLEX` flag bits, the probability and
profile count, and the source block's frequency (the source of every
outer edge is `traces[t].last`, of every inner edge the outer edge's
destination). -/
structure ConnEdge where
  dest : Option Nat
  canFallthru : Bool
  complexFlag : Bool
  probability : Int
  count : Int
  srcFrequency : Int
deriving DecidableEq, Repr

/-- Accumulator of the search for a connection by duplication
(`best`, `next_bb` and `try_copy` of bb-reorder.c lines 1050-1103;
`next_bb = some none` records `next_bb == EXIT_BLOCK_PTR`). -/
structure ConnSearch where
  best : Option ConnEdge
  next_bb : Option (Option Nat)
  try_copy : Bool

/-- Result of the duplication branch of `connect_traces`: either a
block is copied (`copy_bb` at line 1130) or the successor walk stops. -/
inductive ConnAction where
  | copy (dest : Option Nat) (next : Option (Option Nat))
  | stop
deriving DecidableEq, Repr

/-- The inner-loop acceptance condition of bb-reorder.c lines 1080-1091:
an edge to EXIT is always accepted; otherwise the edge must be a
fall-through non-complex edge to the start of an unconnected trace,
meet both duplication thresholds, and beat the current `best2`. -/
def connInnerCond (sot : Nat → Int) (traceLen : Int → Int)
    (connected : Int → Bool) (freq_th count_th : Int)
    (best2 : Option ConnEdge) (best2_len : Int) (e2 : ConnEdge) : Bool :=
  match e2.dest with
  | none => true
  | some d2 =>
    e2.canFallthru && !e2.complexFlag && sot d2 >= 0 && !connected (sot d2) &&
    EDGE_FREQUENCY e2.srcFrequency e2.probability >= freq_th &&
    e2.count >= count_th &&
    (match best2 with
     | none => true
     | some b2 =>
       e2.probability > b2.probability ||
       (e2.probability == b2.probability && traceLen (sot d2) > best2_len))

/-- One outer-loop iteration of the duplication search (bb-reorder.c
lines 1055-1103) on an edge `e` out of `traces[t].last`. -/
def connOuterStep (sot : Nat → Int) (traceLen : Int → Int)
    (connected : Int → Bool) (freq_th count_th : Int)
    (succsOf : Nat → List ConnEdge) (st : ConnSearch) (e : ConnEdge) :
    ConnSearch :=
  match e.dest with
  | none => st
  | some dEdge =>
    if e.canFallthru && !e.complexFlag &&
        (match st.best with
         | none => true
         | some b => e.probability > b.probability) then
      if sot dEdge >= 0 && traceLen (sot dEdge) == 1 then
        { st with best := some e, try_copy := true }
      else
        (((succsOf dEdge).foldl
          (fun (p : ConnSearch × Option ConnEdge × Int) e2 =>
            if connInnerCond sot traceLen connected freq_th count_th
                p.2.1 p.2.2 e2 then
              ({ best := some e, next_bb := some e2.dest, try_copy := true },
               some e2,
               match e2.dest with
               | some d2 => traceLen (sot d2)
               | none => INT_MAX)
            else p)
          (st, none, 0))).1
    else st

/-- The connection-by-duplication branch of `connect_traces`
(bb-reorder.c lines 1048-1146), entered when no direct successor trace
was found: search two-edge paths, then (line 1105) clear `try_copy`
when partitioning is active, and finally copy `best->dest` when
`try_copy` holds and `copy_bb_p` allows it, else stop the successor
walk.  `copyP` is the oracle for `copy_bb_p (best->dest, ...)`. -/
def connect_traces_copy_branch (flagReorder optimizeSize : Bool)
    (succsOfLast : List ConnEdge) (succsOf : Nat → List ConnEdge)
    (sot : Nat → Int) (traceLen : Int → Int) (connected : Int → Bool)
    (freq_th count_th : Int) (copyP : Option Nat → Bool → Bool) : ConnAction :=
  let final := succsOfLast.foldl
    (connOuterStep sot traceLen connected freq_th count_th succsOf)
    { best := none, next_bb := none, try_copy := false }
  let try_copy := if flagReorder then false else final.try_copy
  match final.best with
  | some best =>
    if try_copy && copyP best.dest
        (!optimizeSize &&
         EDGE_FREQUENCY best.srcFrequency best.probability >= freq_th &&
         best.count >= count_th) then
      ConnAction.copy best.dest final.next_bb
    else ConnAction.stop
  | none => ConnAction.stop

/-- `exec_threshold` (bb-reorder.c line 104): per-round execution
thresholds in per mille. -/
def exec_threshold : List Int := [500, 200, 50, 0, 0]

/-- Largest value of the 64-bit `gcov_type`. -/
def GCOV_TYPE_MAX : Int := 9223372036854775807

/-- The count threshold computed by `find_traces` for one round
(bb-reorder.c lines 260-263): the exact `max_entry_count *
exec_threshold[i] / 1000` when `max_entry_count < INT_MAX / 1000`, and
the overflow-avoiding `max_entry_count / 1000 * exec_threshold[i]`
otherwise. -/
def find_traces_count_threshold (max_entry_count exec_thr : Int) : Int :=
  if max_entry_count < Int.tdiv INT_MAX 1000 then
    Int.tdiv (max_entry_count * exec_thr) 1000
  else
    Int.tdiv max_entry_count 1000 * exec_thr

/-- Fall-through edges of block `b` with their positions. -/
def fallthruPairs (c : CFG) (b : Nat) : List (Nat × Edge) :=
  (succPairs c b).filter (fun p => p.2.fallthru)

/-- An edge between real blocks whose endpoints lie in the same
partition (edges to EXIT are vacuously safe: EXIT has no partition). -/
def EdgeSafe (c : CFG) (e : Edge) : Prop :=
  ∀ d, e.dest = some d → partAt c e.src = partAt c d

/-- Block `b` has at most two successor edges, stated positionally. -/
def SuccAtMostTwo (c : CFG) (b : Nat) : Prop :=
  ∀ (i j k : Nat) (ei ej ek : Edge), c.edges[i]? = some ei → c.edges[j]? = some ej →
    c.edges[k]? = some ek → ei.src = b → ej.src = b → ek.src = b →
    i < j → j < k → False

/-- Block `b` has at most one FALLTHRU successor edge, stated
positionally. -/
def FallthruAtMostOne (c : CFG) (b : Nat) : Prop :=
  ∀ (i j : Nat) (ei ej : Edge), c.edges[i]? = some ei → c.edges[j]? = some ej →
    ei.src = b → ej.src = b → ei.fallthru = true → ej.fallthru = true → i = j

/-- The crossing flags of the successor edges of `b` agree with the
partition difference of their endpoints (the state
`find_rarely_executed_basic_blocks_and_crossing_edges` leaves). -/
def CrossingFaithfulAt (c : CFG) (b : Nat) : Prop :=
  ∀ (i : Nat) (e : Edge), c.edges[i]? = some e → e.src = b → e.crossing = crossingCond c e

/-- The crossing flags of all edges agree with the partition difference
of their endpoints. -/
def CrossingFaithful (c : CFG) : Prop :=
  ∀ (i : Nat) (e : Edge), c.edges[i]? = some e → e.crossing = crossingCond c e

/-- Inductive invariant of the `fix_up_fall_thru_edges` walk: `todo` is
the list of blocks not yet visited; every FALLTHRU edge either already
has both endpoints in one partition or stems from an unvisited block
whose successor structure is still as classification left it. -/
def FixInv (todo : List Nat) (c : CFG) : Prop :=
  Ranged c ∧ todo.Nodup ∧
  (∀ b ∈ todo, b < c.blocks.length ∧ SuccAtMostTwo c b ∧
    FallthruAtMostOne c b ∧ CrossingFaithfulAt c b) ∧
  ∀ (i : Nat) (e : Edge), c.edges[i]? = some e → e.fallthru = true →
    (EdgeSafe c e ∨ e.src ∈ todo)

/-- A three-block demonstration CFG: two hot blocks in sequence and a
probably-never-executed third block, with two fall-through edges, the
second of which crosses the partition boundary. -/
def fixupDemo : CFG :=
  ⟨[⟨.hot, false, false, none, none, false⟩,
    ⟨.hot, false, false, none, none, false⟩,
    ⟨.cold, true, false, none, none, false⟩],
   [⟨0, some 1, true, false⟩, ⟨1, some 2, true, false⟩]⟩

/-- `fixupDemo` after classification and `add_labels_and_missing_jumps`:
the crossing edge 1→2 got a jump and lost its FALLTHRU flag. -/
def fixupDemoLabeled : CFG :=
  ⟨[⟨.hot, false, false, none, none, false⟩,
    ⟨.hot, false, true, some 2, none, true⟩,
    ⟨.cold, true, false, none, none, false⟩],
   [⟨0, some 1, true, false⟩, ⟨1, some 2, false, true⟩]⟩

theorem priority_fold_eq (preds : List PredEdge) (a : Int) :
    preds.foldl
      (fun pr e =>
        if (!e.srcIsEntry && e.srcEndOfTrace >= 0) || e.dfsBack then
          let edge_freq := EDGE_FREQUENCY e.srcFrequency e.probability
          if edge_freq > pr then edge_freq else pr
        else pr) a =
    ((preds.filter fun e => (!e.srcIsEntry && e.srcEndOfTrace >= 0) || e.dfsBack).map
      fun e => EDGE_FREQUENCY e.srcFrequency e.probability).foldl max a := by
  induction preds generalizing a with
  | nil => rfl
  | cons e rest ih =>
    by_cases h : ((!e.srcIsEntry && e.srcEndOfTrace >= 0) || e.dfsBack) = true
    · have hmax : (if EDGE_FREQUENCY e.srcFrequency e.probability > a then
          EDGE_FREQUENCY e.srcFrequency e.probability else a) =
          max a (EDGE_FREQUENCY e.srcFrequency e.probability) := by
        rcases le_or_lt (EDGE_FREQUENCY e.srcFrequency e.probability) a with h2 | h2
        · rw [if_neg (by omega), max_eq_left h2]
        · rw [if_pos h2, max_eq_right h2.le]
      simp only [List.foldl_cons, List.filter_cons, h, if_true, List.map_cons]
      rw [hmax]
      exact ih _
    · simp only [Bool.not_eq_true] at h
      simp only [List.foldl_cons, List.filter_cons, h, Bool.false_eq_true, if_false]
      exact ih _

theorem foldl_max_init_le (l : List Int) (a : Int) : a ≤ l.foldl max a := by
  induction l generalizing a with
  | nil => simp
  | cons x rest ih => exact le_trans (le_max_left a x) (ih (max a x))

/-- C3: `push_to_next_round_p` returns true iff another round exists
(`round < number_of_rounds - 1`) and the block is cold while
partitioning, or its frequency is below `exec_th`, or its count is
below `count_th`, or it is probably never executed; in particular it
returns false for every block extracted in the final round, so every
such block seeds a trace. -/
theorem push_to_next_round_p_spec (flagReorder : Bool) (partition : Partition)
    (frequency count : Int) (probNever : Bool)
    (round number_of_rounds exec_th count_th : Int) :
    (push_to_next_round_p flagReorder partition frequency count probNever
        round number_of_rounds exec_th count_th = true ↔
      (round < number_of_rounds - 1 ∧
        ((flagReorder = true ∧ partition = Partition.cold) ∨
          frequency < exec_th ∨ count < count_th ∨ probNever = true))) ∧
    (round = number_of_rounds - 1 →
      push_to_next_round_p flagReorder partition frequency count probNever
        round number_of_rounds exec_th count_th = false) := by
  unfold push_to_next_round_p
  constructor
  · simp [Bool.and_eq_true, Bool.or_eq_true, decide_eq_true_eq]
    tauto
  · intro h
    simp [h]

theorem push_to_next_round_p_spec_witness :
    ((push_to_next_round_p true Partition.cold 0 0 false 0 2 0 0 = true ↔
      ((0 : Int) < 2 - 1 ∧
        ((true = true ∧ Partition.cold = Partition.cold) ∨
          (0 : Int) < 0 ∨ (0 : Int) < 0 ∨ false = true))) ∧
      ((0 : Int) = 2 - 1 →
        push_to_next_round_p true Partition.cold 0 0 false 0 2 0 0 = false)) ∧
    push_to_next_round_p true Partition.cold 0 0 false 1 2 0 0 = false :=
  ⟨push_to_next_round_p_spec true Partition.cold 0 0 false 0 2 0 0,
    (push_to_next_round_p_spec true Partition.cold 0 0 false 1 2 0 0).2 (by decide)⟩

/-- C4: `bb_to_key` returns the positive sentinel `BB_FREQ_MAX` for a
cold or probably-never-executed block; otherwise, with priority the
maximum `EDGE_FREQUENCY` over predecessor edges whose source is an
end-of-trace block or whose flags include DFS_BACK, it returns
`-(100*BB_FREQ_MAX + 100*priority + frequency)` when the priority is
positive and `-frequency` otherwise, and in particular every such key
is below the cold sentinel. -/
theorem bb_to_key_spec (partition : Partition) (probNever : Bool)
    (preds : List PredEdge) (frequency : Int) (hf : 0 ≤ frequency) :
    ((partition = Partition.cold ∨ probNever = true) →
      bb_to_key partition probNever preds frequency = BB_FREQ_MAX) ∧
    (partition = Partition.hot ∧ probNever = false →
      ((0 < claimPriority preds →
          bb_to_key partition probNever preds frequency =
            -(100 * BB_FREQ_MAX + 100 * claimPriority preds + frequency)) ∧
        (claimPriority preds = 0 →
          bb_to_key partition probNever preds frequency = -frequency) ∧
        bb_to_key partition probNever preds frequency < BB_FREQ_MAX)) := by
  have hp0 : 0 ≤ claimPriority preds := foldl_max_init_le _ 0
  constructor
  · rintro (rfl | rfl)
    · simp [bb_to_key]
    · simp [bb_to_key]
  · rintro ⟨rfl, rfl⟩
    have hcode : bb_to_key Partition.hot false preds frequency =
        (if claimPriority preds ≠ 0 then
          -(100 * BB_FREQ_MAX + 100 * claimPriority preds + frequency)
        else -frequency) := by
      simp only [bb_to_key, claimPriority]
      rw [priority_fold_eq]
      rfl
    refine ⟨fun h => by rw [hcode]; simp [ne_of_gt h], fun h => by rw [hcode]; simp [h], ?_⟩
    rw [hcode]
    have hB : BB_FREQ_MAX = (10000 : Int) := rfl
    split_ifs with h <;> omega

theorem bb_to_key_spec_witness :
    (0 : Int) ≤ 7 ∧
    ((Partition.cold = Partition.cold ∨ false = true) →
      bb_to_key Partition.cold false [] 7 = BB_FREQ_MAX) ∧
    (Partition.cold = Partition.hot ∧ false = false →
      ((0 < claimPriority [] →
          bb_to_key Partition.cold false [] 7 =
            -(100 * BB_FREQ_MAX + 100 * claimPriority [] + 7)) ∧
        (claimPriority [] = 0 → bb_to_key Partition.cold false [] 7 = -7) ∧
        bb_to_key Partition.cold false [] 7 < BB_FREQ_MAX)) :=
  ⟨by decide, bb_to_key_spec Partition.cold false [] 7 (by decide)⟩

/-- C5 counterexample: with partitioning enabled, an edge whose
probability (0) is below the current best probability (10000) by far
more than `best_prob/10` still wins when the current best edge crosses
partitions and the candidate does not, contradicting the claim that
such an edge always loses. -/
theorem better_edge_p_band_cex :
    better_edge_p true 0 0 10000 0 false true true false = true ∧
    (0 : Int) < 10000 - Int.tdiv 10000 10 := by decide

/-- C5 (amended): `better_edge_p` returns the 10%-band decision
(probability band, then frequency band, then CFG adjacency) OR-ed with
the partitioning override that lets any non-crossing edge beat a
crossing current best, regardless of the bands. -/
theorem better_edge_p_amended (flagReorder : Bool)
    (prob freq best_prob best_freq : Int)
    (destPrevIsBb curBestExists curBestCrossing eCrossing : Bool) :
    better_edge_p flagReorder prob freq best_prob best_freq destPrevIsBb
      curBestExists curBestCrossing eCrossing =
    (bandDecision prob freq best_prob best_freq destPrevIsBb ||
      crossingOverride flagReorder curBestExists curBestCrossing eCrossing) := by
  simp only [better_edge_p, bandDecision, crossingOverride]
  split_ifs <;> simp_all

/-- C6: when the best edge closes a loop in the current trace, a
one-block self-loop leads to plain termination (no rotation, no
duplication), and otherwise the loop is rotated exactly when
`EDGE_FREQUENCY (best_edge)` exceeds 4/5 of the destination's frequency
and the destination is not the function's first real block. -/
theorem loop_closure_spec (selfLoop : Bool) (srcFreq prob destFreq : Int)
    (destIsFirst anotherEdge copyOk : Bool) (hd : 0 ≤ destFreq) :
    (selfLoop = true →
      loop_closure selfLoop srcFreq prob destFreq destIsFirst anotherEdge copyOk =
        LoopOutcome.terminated) ∧
    (selfLoop = false →
      (loop_closure selfLoop srcFreq prob destFreq destIsFirst anotherEdge copyOk =
          LoopOutcome.rotated ↔
        (5 * EDGE_FREQUENCY srcFreq prob > 4 * destFreq ∧ destIsFirst = false))) := by
  have hbridge : EDGE_FREQUENCY srcFreq prob > Int.tdiv (4 * destFreq) 5 ↔
      5 * EDGE_FREQUENCY srcFreq prob > 4 * destFreq := by
    rw [Int.tdiv_eq_ediv (by omega) (by omega)]
    constructor
    · intro h
      have := (Int.ediv_lt_iff_lt_mul (c := 5) (by omega)).1 h
      omega
    · intro h
      have h2 : 4 * destFreq / 5 < EDGE_FREQUENCY srcFreq prob :=
        (Int.ediv_lt_iff_lt_mul (c := 5) (by omega)).2 (by omega)
      omega
  constructor
  · rintro rfl
    simp [loop_closure]
  · rintro rfl
    unfold loop_closure
    by_cases h : EDGE_FREQUENCY srcFreq prob > Int.tdiv (4 * destFreq) 5
    · rw [if_neg (by simp), if_pos h]
      cases destIsFirst <;> simp_all
    · rw [if_neg (by simp), if_neg h]
      have h5 : ¬ (5 * EDGE_FREQUENCY srcFreq prob > 4 * destFreq) :=
        fun hx => h (hbridge.2 hx)
      constructor
      · intro h2
        split at h2 <;> simp_all
      · intro h2
        exact absurd h2.1 h5

theorem loop_closure_spec_witness :
    (0 : Int) ≤ 10 ∧
    ((false = true →
      loop_closure false 100 10000 10 false true false = LoopOutcome.terminated) ∧
    (false = false →
      (loop_closure false 100 10000 10 false true false = LoopOutcome.rotated ↔
        (5 * EDGE_FREQUENCY 100 10000 > 4 * 10 ∧ false = false)))) :=
  ⟨by decide, loop_closure_spec false 100 10000 10 false true false (by decide)⟩

/-- C7: when `flag_reorder_blocks_and_partition` is set, the
connection-by-duplication branch of `connect_traces` never copies a
block: whatever the candidate edges, thresholds, trace table and
`copy_bb_p` results, it stops the successor walk. -/
theorem connect_traces_no_duplication (optimizeSize : Bool)
    (succsOfLast : List ConnEdge) (succsOf : Nat → List ConnEdge)
    (sot : Nat → Int) (traceLen : Int → Int) (connected : Int → Bool)
    (freq_th count_th : Int) (copyP : Option Nat → Bool → Bool) :
    connect_traces_copy_branch true optimizeSize succsOfLast succsOf
      sot traceLen connected freq_th count_th copyP = ConnAction.stop := by
  unfold connect_traces_copy_branch
  cases h : (succsOfLast.foldl
      (connOuterStep sot traceLen connected freq_th count_th succsOf)
      { best := none, next_bb := none, try_copy := false }).best <;> simp [h]

/-- C9 counterexample: at `max_entry_count = 2147483` (the first value
taking the overflow-avoiding branch) and round 0
(`exec_threshold[0] = 500`), the computed threshold is 1073500 while
the exact `max_entry_count * exec_threshold[i] / 1000` is 1073741, so
the claimed exact equality fails. -/
theorem find_traces_count_threshold_cex :
    find_traces_count_threshold 2147483 500 = 1073500 ∧
    Int.tdiv (2147483 * 500) 1000 = 1073741 ∧ (1073500 : Int) ≠ 1073741 := by
  decide

/-- C9 (amended): for every round threshold and every nonnegative
`max_entry_count` in the `gcov_type` range, the count threshold is the
exact `max_entry_count * exec_threshold[i] / 1000` when
`max_entry_count < INT_MAX / 1000` and the approximation
`(max_entry_count / 1000) * exec_threshold[i]` otherwise; in both
branches the intermediate product stays within the 64-bit `gcov_type`
range, so the computation never overflows. -/
theorem find_traces_count_threshold_amended (me et : Int) (h0 : 0 ≤ me)
    (hm : me ≤ GCOV_TYPE_MAX) (het : et ∈ exec_threshold) :
    (me < Int.tdiv INT_MAX 1000 →
      find_traces_count_threshold me et = Int.tdiv (me * et) 1000 ∧
      0 ≤ me * et ∧ me * et ≤ GCOV_TYPE_MAX) ∧
    (¬ me < Int.tdiv INT_MAX 1000 →
      find_traces_count_threshold me et = Int.tdiv me 1000 * et ∧
      0 ≤ Int.tdiv me 1000 * et ∧ Int.tdiv me 1000 * et ≤ GCOV_TYPE_MAX) := by
  have hg : GCOV_TYPE_MAX = (9223372036854775807 : Int) := rfl
  have hq : Int.tdiv me 1000 = me / 1000 := Int.tdiv_eq_ediv h0 (by omega)
  have hq1 : 0 ≤ me / 1000 := Int.ediv_nonneg h0 (by omega)
  have hq2 : me / 1000 ≤ 9223372036854775 := by
    have h2 : me / 1000 ≤ GCOV_TYPE_MAX / 1000 := Int.ediv_le_ediv (by omega) hm
    rw [hg] at h2
    omega
  have hd : Int.tdiv INT_MAX 1000 = (2147483 : Int) := by decide
  rw [hg] at hm
  fin_cases het <;>
  refine ⟨fun hlt => ⟨by simp [find_traces_count_threshold, hlt], by omega,
      by rw [hg]; omega⟩,
    fun hge => ⟨by simp [find_traces_count_threshold, hge], by rw [hq]; omega,
      by rw [hq, hg]; omega⟩⟩

theorem find_traces_count_threshold_amended_witness :
    ((0 : Int) ≤ 4000000000 ∧ (4000000000 : Int) ≤ GCOV_TYPE_MAX ∧
      (500 : Int) ∈ exec_threshold) ∧
    (((4000000000 : Int) < Int.tdiv INT_MAX 1000 →
      find_traces_count_threshold 4000000000 500 =
        Int.tdiv (4000000000 * 500) 1000 ∧
      (0 : Int) ≤ 4000000000 * 500 ∧ (4000000000 : Int) * 500 ≤ GCOV_TYPE_MAX) ∧
    (¬ (4000000000 : Int) < Int.tdiv INT_MAX 1000 →
      find_traces_count_threshold 4000000000 500 =
        Int.tdiv 4000000000 1000 * 500 ∧
      (0 : Int) ≤ Int.tdiv 4000000000 1000 * 500 ∧
      Int.tdiv 4000000000 1000 * 500 ≤ GCOV_TYPE_MAX)) :=
  ⟨⟨by decide, by decide, by decide⟩,
    find_traces_count_threshold_amended 4000000000 500 (by decide) (by decide)
      (by decide)⟩

theorem find_rarely_fst_blocks (c : CFG) :
    (find_rarely_executed_basic_blocks_and_crossing_edges c).1.blocks =
      (assignPartitions c).blocks := rfl

theorem assignPartitions_blocks_length (c : CFG) :
    (assignPartitions c).blocks.length = c.blocks.length := by
  simp [assignPartitions]

theorem find_rarely_fst_edges_getElem (c : CFG) (i : Nat) :
    (find_rarely_executed_basic_blocks_and_crossing_edges c).1.edges[i]? =
      (c.edges[i]?).map (fun e =>
        if e.src < c.blocks.length then
          { e with crossing := crossingCond (assignPartitions c) e }
        else e) := by
  show ((assignPartitions c).edges.map _)[i]? = _
  rw [List.getElem?_map]
  simp only [assignPartitions_blocks_length]
  rfl

/-- The classification pass leaves the crossing flag of every edge
equal to the partition-difference condition of its endpoints. -/
theorem find_rarely_faithful (c : CFG) (h : Ranged c) :
    CrossingFaithful (find_rarely_executed_basic_blocks_and_crossing_edges c).1 := by
  intro i e he
  rw [find_rarely_fst_edges_getElem] at he
  rcases Option.map_eq_some'.1 he with ⟨e0, he0, rfl⟩
  have hsrc : e0.src < c.blocks.length := (h e0 (List.getElem?_mem he0)).1
  rw [if_pos hsrc]
  have hcc : crossingCond (find_rarely_executed_basic_blocks_and_crossing_edges c).1
      (if e0.src < c.blocks.length then
        { e0 with crossing := crossingCond (assignPartitions c) e0 }
      else e0) = crossingCond (assignPartitions c) e0 := by
    rw [if_pos hsrc]
    unfold crossingCond partAt
    rw [find_rarely_fst_blocks]
  rw [if_pos hsrc] at hcc
  rw [hcc]

/-- C10: after `find_rarely_executed_basic_blocks_and_crossing_edges`,
the crossing flag of every edge is true exactly when its endpoints are
real blocks (never ENTRY, which cannot own a successor-list edge, and
never EXIT) lying in different partitions; every other edge's flag is
explicitly false, clearing any stale value. -/
theorem find_rarely_crossing_spec (c : CFG) (h : Ranged c) :
    ∀ (i : Nat) (e : Edge),
      (find_rarely_executed_basic_blocks_and_crossing_edges c).1.edges[i]? = some e →
      (e.crossing = true ↔ ∃ d, e.dest = some d ∧
        partAt (find_rarely_executed_basic_blocks_and_crossing_edges c).1 e.src ≠
          partAt (find_rarely_executed_basic_blocks_and_crossing_edges c).1 d) := by
  intro i e he
  rw [find_rarely_faithful c h i e he]
  unfold crossingCond
  cases hdest : e.dest with
  | none => simp [hdest]
  | some d =>
    unfold partAt
    rw [find_rarely_fst_blocks]
    simp [bne_iff_ne]

theorem find_rarely_crossing_spec_witness :
    Ranged (CFG.mk [Block.mk Partition.hot false false none none false,
        Block.mk Partition.hot true false none none false]
      [Edge.mk 0 (some 1) true false]) ∧
    ((Edge.mk 0 (some 1) true true).crossing = true ↔ ∃ d, (some 1 : Option Nat) = some d ∧
      partAt (find_rarely_executed_basic_blocks_and_crossing_edges
        (CFG.mk [Block.mk Partition.hot false false none none false,
            Block.mk Partition.hot true false none none false]
          [Edge.mk 0 (some 1) true false])).1 (Edge.mk 0 (some 1) true true).src ≠
        partAt (find_rarely_executed_basic_blocks_and_crossing_edges
          (CFG.mk [Block.mk Partition.hot false false none none false,
              Block.mk Partition.hot true false none none false]
            [Edge.mk 0 (some 1) true false])).1 d) :=
  ⟨by decide, find_rarely_crossing_spec
    (CFG.mk [Block.mk Partition.hot false false none none false,
        Block.mk Partition.hot true false none none false]
      [Edge.mk 0 (some 1) true false]) (by decide) 0 (Edge.mk 0 (some 1) true true)
    (by decide)⟩

/-- C8: in `add_labels_and_missing_jumps`, a crossing edge whose source
does not end in a jump is handled as follows: with exactly one
successor, an unconditional jump to the destination and a barrier are
emitted, the barrier is detached into the source's footer, and the
edge's FALLTHRU flag is cleared; with more than one successor the pass
aborts. -/
theorem add_labels_step_spec (c : CFG) (i : Nat) (e : Edge) (d : Nat) (b : Block)
    (he : c.edges[i]? = some e) (hd : e.dest = some d)
    (hb : c.blocks[e.src]? = some b) (hj : b.endsInJump = false) :
    (succCount c e.src = 1 →
      add_labels_step c i = Except.ok
        { c with
          blocks := (c.blocks.set e.src
            { b with
                endsInJump := true,
                jumpTarget := some d,
                footerBarrier := true }),
          edges := (c.edges.set i { e with fallthru := false }) }) ∧
    (1 < succCount c e.src → add_labels_step c i = Except.error ()) := by
  unfold add_labels_step
  simp only [he, hd, hb]
  rw [if_neg (by simp [hj])]
  constructor
  · intro h1
    rw [if_pos (by simp [h1])]
  · intro h2
    rw [if_neg (by simp; omega)]

theorem add_labels_step_spec_witness :
    ((CFG.mk [Block.mk Partition.hot false false none none false,
        Block.mk Partition.cold false false none none false]
      [Edge.mk 0 (some 1) true true]).edges[0]? = some (Edge.mk 0 (some 1) true true) ∧
      (Edge.mk 0 (some 1) true true).dest = some 1 ∧
      (Block.mk Partition.hot false false none none false).endsInJump = false) ∧
    (succCount (CFG.mk [Block.mk Partition.hot false false none none false,
        Block.mk Partition.cold false false none none false]
      [Edge.mk 0 (some 1) true true]) 0 = 1 →
      add_labels_step (CFG.mk [Block.mk Partition.hot false false none none false,
          Block.mk Partition.cold false false none none false]
        [Edge.mk 0 (some 1) true true]) 0 = Except.ok
        (CFG.mk [Block.mk Partition.hot false true (some 1) none true,
            Block.mk Partition.cold false false none none false]
          [Edge.mk 0 (some 1) false true])) :=
  ⟨⟨by decide, by decide, by decide⟩, by
    have h := (add_labels_step_spec
      (CFG.mk [Block.mk Partition.hot false false none none false,
          Block.mk Partition.cold false false none none false]
        [Edge.mk 0 (some 1) true true]) 0 (Edge.mk 0 (some 1) true true) 1
      (Block.mk Partition.hot false false none none false)
      (by decide) (by decide) (by decide) (by decide)).1
    intro h1
    rw [h h1]
    rfl⟩

/-- C1 counterexample: a two-block procedure with
`cannot_modify_jumps = true` on which `partition_hot_cold_basic_blocks`
is not a no-op (it reclassifies the stale COLD partitions to HOT and
chains `rbi->next`), because that entry point never consults
`cannot_modify_jumps_p`. -/
theorem entry_points_noop_cex :
    (PassState.mk (CFG.mk [Block.mk Partition.cold false false none none false,
        Block.mk Partition.cold false false none none false] [])
      true).cannotModifyJumps = true ∧
    1 < (PassState.mk (CFG.mk [Block.mk Partition.cold false false none none false,
        Block.mk Partition.cold false false none none false] [])
      true).cfg.blocks.length ∧
    (partition_hot_cold_basic_blocks (fun _ => true) (fun _ => true) (fun c => c)
      (PassState.mk (CFG.mk [Block.mk Partition.cold false false none none false,
          Block.mk Partition.cold false false none none false] [])
        true)).toOption ≠
      some (PassState.mk
        (CFG.mk [Block.mk Partition.cold false false none none false,
          Block.mk Partition.cold false false none none false] [])
        true) := by
  decide

/-- C1 (amended): `reorder_basic_blocks` is a no-op when the procedure
has at most one basic block or the target reports
`cannot_modify_jumps`, but `partition_hot_cold_basic_blocks` only
checks the block count: it is a no-op when the procedure has at most
one basic block, and it runs regardless of `cannot_modify_jumps`. -/
theorem entry_points_noop_amended :
    (∀ (body : CFG → CFG) (s : PassState),
      s.cfg.blocks.length ≤ 1 ∨ s.cannotModifyJumps = true →
        reorder_basic_blocks body s = s) ∧
    (∀ (invertOk forceNull : Nat → Bool) (fixBranches : CFG → CFG) (s : PassState),
      s.cfg.blocks.length ≤ 1 →
        partition_hot_cold_basic_blocks invertOk forceNull fixBranches s =
          Except.ok s) := by
  constructor
  · intro body s h
    unfold reorder_basic_blocks
    rcases h with h | h
    · rw [if_pos h]
    · by_cases h1 : s.cfg.blocks.length ≤ 1
      · rw [if_pos h1]
      · rw [if_neg h1, if_pos h]
  · intro io fn fb s h
    unfold partition_hot_cold_basic_blocks
    rw [if_pos h]

theorem entry_points_noop_amended_witness :
    ((PassState.mk (CFG.mk [Block.mk Partition.hot false false none none false] [])
        true).cfg.blocks.length ≤ 1 ∨
      (PassState.mk (CFG.mk [Block.mk Partition.hot false false none none false] [])
        true).cannotModifyJumps = true) ∧
    reorder_basic_blocks (fun c => c)
      (PassState.mk (CFG.mk [Block.mk Partition.hot false false none none false] [])
        true) =
      PassState.mk (CFG.mk [Block.mk Partition.hot false false none none false] [])
        true ∧
    partition_hot_cold_basic_blocks (fun _ => true) (fun _ => true) (fun c => c)
      (PassState.mk (CFG.mk [Block.mk Partition.hot false false none none false] [])
        true) =
      Except.ok (PassState.mk
        (CFG.mk [Block.mk Partition.hot false false none none false] []) true) :=
  ⟨Or.inl (by decide),
    entry_points_noop_amended.1 (fun c => c) _ (Or.inl (by decide)),
    entry_points_noop_amended.2 (fun _ => true) (fun _ => true) (fun c => c) _
      (by decide)⟩

theorem mem_succPairs {c : CFG} {b : Nat} {p : Nat × Edge} :
    p ∈ succPairs c b ↔ c.edges[p.1]? = some p.2 ∧ p.2.src = b := by
  unfold succPairs
  rw [List.mem_filter]
  rcases p with ⟨i, e⟩
  simp [List.mk_mem_enum_iff_getElem?]

theorem succPairs_pairwise (c : CFG) (b : Nat) :
    (succPairs c b).Pairwise (fun p q => p.1 < q.1) := by
  unfold succPairs
  apply List.Pairwise.filter
  rw [List.pairwise_iff_getElem]
  intro i j hi hj hij
  rw [List.getElem_enum, List.getElem_enum]
  exact hij

theorem mem_len_le_one {α : Type} {l : List α} {x : α} (h : x ∈ l)
    (hl : l.length ≤ 1) : l[0]? = some x := by
  cases l with
  | nil => cases h
  | cons a t =>
    cases t with
    | nil => simp_all
    | cons a2 t2 => simp at hl

theorem mem_len_le_two {α : Type} {l : List α} {x : α} (h : x ∈ l)
    (hl : l.length ≤ 2) : l[0]? = some x ∨ l[1]? = some x := by
  cases l with
  | nil => cases h
  | cons a t =>
    cases t with
    | nil => simp_all
    | cons a2 t2 =>
      cases t2 with
      | nil => simp_all; tauto
      | cons a3 t3 => simp at hl

theorem succPairs_length_le_two {c : CFG} {b : Nat} (h : SuccAtMostTwo c b) :
    (succPairs c b).length ≤ 2 := by
  by_contra hlen
  push_neg at hlen
  have h0 : 0 < (succPairs c b).length := by omega
  have h1 : 1 < (succPairs c b).length := by omega
  have h2 : 2 < (succPairs c b).length := by omega
  have hp := List.pairwise_iff_getElem.1 (succPairs_pairwise c b)
  have hm0 := mem_succPairs.1 (List.getElem_mem h0)
  have hm1 := mem_succPairs.1 (List.getElem_mem h1)
  have hm2 := mem_succPairs.1 (List.getElem_mem h2)
  exact h _ _ _ _ _ _ hm0.1 hm1.1 hm2.1 hm0.2 hm1.2 hm2.2
    (hp 0 1 h0 h1 (by omega)) (hp 1 2 h1 h2 (by omega))

theorem crossingCond_congr (c c' : CFG) (e e' : Edge)
    (hs : e'.src = e.src) (hd : e'.dest = e.dest)
    (hpsrc : partAt c' e.src = partAt c e.src)
    (hpdest : ∀ d, e.dest = some d → partAt c' d = partAt c d) :
    crossingCond c' e' = crossingCond c e := by
  unfold crossingCond
  rw [hd, hs]
  cases hde : e.dest with
  | none => rfl
  | some d => simp only [hpsrc, hpdest d hde]

theorem EdgeSafe_congr (c c' : CFG) (e e' : Edge)
    (hsrc : e'.src = e.src) (hdest : e'.dest = e.dest)
    (hpsrc : partAt c' e'.src = partAt c e.src)
    (hpdest : ∀ d, e.dest = some d → partAt c' d = partAt c d)
    (h : EdgeSafe c e) : EdgeSafe c' e' := by
  intro d hd
  rw [hdest] at hd
  rw [hpsrc, hpdest d hd]
  exact h d hd

/-- Relation between the states before and after a prefix of
`add_labels_and_missing_jumps`: blocks keep their count and partitions,
edges keep their positions, endpoints and crossing flags, and FALLTHRU
flags are only ever cleared. -/
def AddLabelsRel (c c' : CFG) : Prop :=
  c'.blocks.length = c.blocks.length ∧
  (∀ j : Nat, partAt c' j = partAt c j) ∧
  c'.edges.length = c.edges.length ∧
  (∀ (i : Nat) (e' : Edge), c'.edges[i]? = some e' →
    ∃ e, c.edges[i]? = some e ∧ e'.src = e.src ∧ e'.dest = e.dest ∧
      e'.crossing = e.crossing ∧ (e'.fallthru = true → e.fallthru = true))

theorem AddLabelsRel.refl (c : CFG) : AddLabelsRel c c :=
  ⟨rfl, fun _ => rfl, rfl, fun i e' he' => ⟨e', he', rfl, rfl, rfl, fun h => h⟩⟩

theorem AddLabelsRel.trans {c1 c2 c3 : CFG} (h12 : AddLabelsRel c1 c2)
    (h23 : AddLabelsRel c2 c3) : AddLabelsRel c1 c3 := by
  obtain ⟨hb12, hp12, he12, hr12⟩ := h12
  obtain ⟨hb23, hp23, he23, hr23⟩ := h23
  refine ⟨hb23.trans hb12, fun j => (hp23 j).trans (hp12 j), he23.trans he12, ?_⟩
  intro i e3 he3
  obtain ⟨e2, he2, hs, hd, hc, hf⟩ := hr23 i e3 he3
  obtain ⟨e1, he1, hs', hd', hc', hf'⟩ := hr12 i e2 he2
  exact ⟨e1, he1, hs.trans hs', hd.trans hd', hc.trans hc', fun h => hf' (hf h)⟩

theorem add_labels_step_rel (c : CFG) (i : Nat) (c' : CFG)
    (h : add_labels_step c i = Except.ok c') : AddLabelsRel c c' := by
  unfold add_labels_step at h
  cases he : c.edges[i]? with
  | none =>
    simp only [he] at h
    cases h
    exact AddLabelsRel.refl c
  | some e =>
    simp only [he] at h
    cases hd : e.dest with
    | none =>
      simp only [hd] at h
      cases h
      exact AddLabelsRel.refl c
    | some d =>
      simp only [hd] at h
      cases hb : c.blocks[e.src]? with
      | none =>
        simp only [hb] at h
        cases h
        exact AddLabelsRel.refl c
      | some b =>
        simp only [hb] at h
        by_cases hj : b.endsInJump = true
        · rw [if_pos hj] at h
          cases h
          exact AddLabelsRel.refl c
        · rw [if_neg hj] at h
          by_cases hs : (succCount c e.src == 1) = true
          · rw [if_pos hs] at h
            cases h
            have hbl : e.src < c.blocks.length := by
              by_contra hx
              rw [List.getElem?_eq_none (by omega)] at hb
              cases hb
            refine ⟨by simp, ?_, by simp, ?_⟩
            · intro j
              unfold partAt
              show ((c.blocks.set e.src _)[j]?).map _ = _
              rw [List.getElem?_set]
              by_cases hje : e.src = j
              · subst hje
                rw [if_pos rfl, if_pos hbl, hb]
                rfl
              · rw [if_neg hje]
            · intro k e' he'
              rw [List.getElem?_set] at he'
              by_cases hik : i = k
              · subst hik
                rw [if_pos rfl] at he'
                have hilen : i < c.edges.length := by
                  by_contra hx
                  rw [List.getElem?_eq_none (by omega)] at he
                  cases he
                rw [if_pos hilen] at he'
                cases he'
                exact ⟨e, he, rfl, hd.symm, rfl, by simp⟩
              · rw [if_neg hik] at he'
                exact ⟨e', he', rfl, rfl, rfl, fun hh => hh⟩
          · rw [if_neg hs] at h
            cases h

theorem add_labels_rel (ids : List Nat) : ∀ (c c' : CFG),
    add_labels_and_missing_jumps c ids = Except.ok c' → AddLabelsRel c c' := by
  induction ids with
  | nil =>
    intro c c' h
    cases h
    exact AddLabelsRel.refl c
  | cons i rest ih =>
    intro c c' h
    unfold add_labels_and_missing_jumps at h
    rw [List.foldlM_cons] at h
    cases hstep : add_labels_step c i with
    | error err =>
      rw [hstep] at h
      cases h
    | ok c1 =>
      rw [hstep] at h
      have h2 : List.foldlM add_labels_step c1 rest = Except.ok c' := h
      exact (add_labels_step_rel c i c1 hstep).trans (ih c1 c' h2)

theorem succAtMostTwo_of_count {c : CFG} {b : Nat} (h : succCount c b ≤ 2) :
    SuccAtMostTwo c b := by
  intro i j k ei ej ek hei hej hek hsi hsj hsk hij hjk
  have m0 : ((i, ei) : Nat × Edge) ∈ succPairs c b := mem_succPairs.2 ⟨hei, hsi⟩
  have m1 : ((j, ej) : Nat × Edge) ∈ succPairs c b := mem_succPairs.2 ⟨hej, hsj⟩
  have m2 : ((k, ek) : Nat × Edge) ∈ succPairs c b := mem_succPairs.2 ⟨hek, hsk⟩
  rcases mem_len_le_two m0 h with h0 | h0 <;>
    rcases mem_len_le_two m1 h with h1 | h1 <;>
      rcases mem_len_le_two m2 h with h2 | h2 <;> simp_all <;> omega

theorem fallthruAtMostOne_of_count {c : CFG} {b : Nat}
    (h : (fallthruPairs c b).length ≤ 1) : FallthruAtMostOne c b := by
  intro i j ei ej hei hej hsi hsj hfi hfj
  have m0 : ((i, ei) : Nat × Edge) ∈ fallthruPairs c b :=
    List.mem_filter.2 ⟨mem_succPairs.2 ⟨hei, hsi⟩, by simp [hfi]⟩
  have m1 : ((j, ej) : Nat × Edge) ∈ fallthruPairs c b :=
    List.mem_filter.2 ⟨mem_succPairs.2 ⟨hej, hsj⟩, by simp [hfj]⟩
  have e0 := mem_len_le_one m0 h
  have e1 := mem_len_le_one m1 h
  rw [e0] at e1
  simp_all

theorem find_rarely_blocks_length (c : CFG) :
    (find_rarely_executed_basic_blocks_and_crossing_edges c).1.blocks.length =
      c.blocks.length := by
  rw [find_rarely_fst_blocks, assignPartitions_blocks_length]

theorem find_rarely_edge_rel (c : CFG) (i : Nat) (e' : Edge)
    (h : (find_rarely_executed_basic_blocks_and_crossing_edges c).1.edges[i]? =
      some e') :
    ∃ e, c.edges[i]? = some e ∧ e'.src = e.src ∧ e'.dest = e.dest ∧
      e'.fallthru = e.fallthru := by
  rw [find_rarely_fst_edges_getElem] at h
  rcases Option.map_eq_some'.1 h with ⟨e0, he0, rfl⟩
  by_cases hs : e0.src < c.blocks.length
  · rw [if_pos hs]
    exact ⟨e0, he0, rfl, rfl, rfl⟩
  · rw [if_neg hs]
    exact ⟨e0, he0, rfl, rfl, rfl⟩

theorem find_rarely_edges_length (c : CFG) :
    (find_rarely_executed_basic_blocks_and_crossing_edges c).1.edges.length =
      c.edges.length := by
  show ((assignPartitions c).edges.map _).length = _
  rw [List.length_map]
  rfl

theorem Ranged_find_rarely {c : CFG} (h : Ranged c) :
    Ranged (find_rarely_executed_basic_blocks_and_crossing_edges c).1 := by
  intro e' he'
  obtain ⟨i, hi⟩ := List.getElem?_of_mem he'
  obtain ⟨e, he, hs, hd, _⟩ := find_rarely_edge_rel c i e' hi
  obtain ⟨hb1, hb2⟩ := h e (List.getElem?_mem he)
  rw [find_rarely_blocks_length, hs, hd]
  exact ⟨hb1, hb2⟩

theorem succAtMostTwo_find_rarely {c : CFG} {b : Nat} (h : SuccAtMostTwo c b) :
    SuccAtMostTwo (find_rarely_executed_basic_blocks_and_crossing_edges c).1 b := by
  intro i j k ei ej ek hei hej hek hsi hsj hsk hij hjk
  obtain ⟨e1, he1, hs1, _, _⟩ := find_rarely_edge_rel c i ei hei
  obtain ⟨e2, he2, hs2, _, _⟩ := find_rarely_edge_rel c j ej hej
  obtain ⟨e3, he3, hs3, _, _⟩ := find_rarely_edge_rel c k ek hek
  exact h i j k e1 e2 e3 he1 he2 he3 (hs1 ▸ hsi) (hs2 ▸ hsj) (hs3 ▸ hsk) hij hjk

theorem fallthruAtMostOne_find_rarely {c : CFG} {b : Nat}
    (h : FallthruAtMostOne c b) :
    FallthruAtMostOne (find_rarely_executed_basic_blocks_and_crossing_edges c).1 b := by
  intro i j ei ej hei hej hsi hsj hfi hfj
  obtain ⟨e1, he1, hs1, _, hf1⟩ := find_rarely_edge_rel c i ei hei
  obtain ⟨e2, he2, hs2, _, hf2⟩ := find_rarely_edge_rel c j ej hej
  exact h i j e1 e2 he1 he2 (hs1 ▸ hsi) (hs2 ▸ hsj) (hf1 ▸ hfi) (hf2 ▸ hfj)

theorem Ranged_of_rel {c c' : CFG} (hrel : AddLabelsRel c c') (h : Ranged c) :
    Ranged c' := by
  intro e' he'
  obtain ⟨i, hi⟩ := List.getElem?_of_mem he'
  obtain ⟨e, he, hs, hd, _, _⟩ := hrel.2.2.2 i e' hi
  obtain ⟨hb1, hb2⟩ := h e (List.getElem?_mem he)
  rw [hrel.1, hs, hd]
  exact ⟨hb1, hb2⟩

theorem succAtMostTwo_of_rel {c c' : CFG} {b : Nat} (hrel : AddLabelsRel c c')
    (h : SuccAtMostTwo c b) : SuccAtMostTwo c' b := by
  intro i j k ei ej ek hei hej hek hsi hsj hsk hij hjk
  obtain ⟨e1, he1, hs1, _, _, _⟩ := hrel.2.2.2 i ei hei
  obtain ⟨e2, he2, hs2, _, _, _⟩ := hrel.2.2.2 j ej hej
  obtain ⟨e3, he3, hs3, _, _, _⟩ := hrel.2.2.2 k ek hek
  exact h i j k e1 e2 e3 he1 he2 he3 (hs1 ▸ hsi) (hs2 ▸ hsj) (hs3 ▸ hsk) hij hjk

theorem fallthruAtMostOne_of_rel {c c' : CFG} {b : Nat} (hrel : AddLabelsRel c c')
    (h : FallthruAtMostOne c b) : FallthruAtMostOne c' b := by
  intro i j ei ej hei hej hsi hsj hfi hfj
  obtain ⟨e1, he1, hs1, _, _, hf1⟩ := hrel.2.2.2 i ei hei
  obtain ⟨e2, he2, hs2, _, _, hf2⟩ := hrel.2.2.2 j ej hej
  exact h i j e1 e2 he1 he2 (hs1 ▸ hsi) (hs2 ▸ hsj) (hf1 hfi) (hf2 hfj)

theorem crossingFaithfulAt_of_rel {c c' : CFG} {b : Nat} (hrel : AddLabelsRel c c')
    (h : CrossingFaithful c) : CrossingFaithfulAt c' b := by
  intro i e' he' _
  obtain ⟨e, he, hs, hd, hc, _⟩ := hrel.2.2.2 i e' he'
  rw [hc, h i e he]
  symm
  apply crossingCond_congr c c' e e' hs hd
  · exact hrel.2.1 e.src
  · intro d _
    exact hrel.2.1 d

theorem lt_of_getElem?_some {α : Type} {l : List α} {i : Nat} {a : α}
    (h : l[i]? = some a) : i < l.length := by
  by_contra hx
  rw [List.getElem?_eq_none (by omega)] at h
  cases h

theorem partAt_edges_irrel (c : CFG) (es : List Edge) (j : Nat) :
    partAt ⟨c.blocks, es⟩ j = partAt c j := rfl

theorem partAt_blocks_set {c : CFG} {b : Nat} {cur nbk : Block}
    (hcur : c.blocks[b]? = some cur) (hp : nbk.partition = cur.partition)
    (es : List Edge) (j : Nat) :
    partAt ⟨c.blocks.set b nbk, es⟩ j = partAt c j := by
  have hl : b < c.blocks.length := lt_of_getElem?_some hcur
  show ((c.blocks.set b nbk)[j]?).map _ = (c.blocks[j]?).map _
  rw [List.getElem?_set]
  by_cases hbj : b = j
  · subst hbj
    rw [if_pos rfl, if_pos hl, hcur]
    simp [hp]
  · rw [if_neg hbj]

theorem partAt_append_lt {bs tail : List Block} {j : Nat} (h : j < bs.length)
    (es es' : List Edge) :
    partAt ⟨bs ++ tail, es⟩ j = partAt ⟨bs, es'⟩ j := by
  show ((bs ++ tail)[j]?).map _ = (bs[j]?).map _
  rw [List.getElem?_append, if_pos h]

theorem partAt_concat_self {bs : List Block} {x : Block} (es : List Edge) :
    partAt ⟨bs ++ [x], es⟩ bs.length = some x.partition := by
  show ((bs ++ [x])[bs.length]?).map _ = _
  rw [List.getElem?_concat_length]
  rfl

theorem FixInv_unchanged (b : Nat) (rest : List Nat) (c : CFG)
    (hInv : FixInv (b :: rest) c)
    (hsafe : ∀ (i : Nat) (e : Edge), c.edges[i]? = some e → e.src = b →
      e.fallthru = true → EdgeSafe c e) :
    FixInv rest c := by
  obtain ⟨hR, hnd, hpend, hedge⟩ := hInv
  refine ⟨hR, hnd.of_cons, fun b' hb' => hpend b' (List.mem_cons_of_mem _ hb'), ?_⟩
  intro i e hi hf
  rcases hedge i e hi hf with hsafe' | hmem
  · exact Or.inl hsafe'
  · rcases List.mem_cons.1 hmem with hb | hmem'
    · exact Or.inl (hsafe i e hi hb hf)
    · exact Or.inr hmem'

theorem getElem?_set_cases {α : Type} (l : List α) (i1 : Nat) (a1 : α)
    (h1 : i1 < l.length) (j : Nat) (x : α) (h : (l.set i1 a1)[j]? = some x) :
    (j = i1 ∧ x = a1) ∨ (j ≠ i1 ∧ l[j]? = some x) := by
  rw [List.getElem?_set] at h
  by_cases hj : i1 = j
  · rw [if_pos hj, if_pos h1] at h
    cases h
    exact Or.inl ⟨hj.symm, rfl⟩
  · rw [if_neg hj] at h
    exact Or.inr ⟨fun hx => hj hx.symm, h⟩

theorem getElem?_set_set_cases {α : Type} (l : List α) (i1 i2 : Nat) (a1 a2 : α)
    (h1 : i1 < l.length) (h2 : i2 < l.length) (j : Nat) (x : α)
    (h : ((l.set i1 a1).set i2 a2)[j]? = some x) :
    (j = i2 ∧ x = a2) ∨ (j ≠ i2 ∧ j = i1 ∧ x = a1) ∨
      (j ≠ i2 ∧ j ≠ i1 ∧ l[j]? = some x) := by
  rcases getElem?_set_cases (l.set i1 a1) i2 a2 (by rw [List.length_set]; omega)
      j x h with ⟨hj, rfl⟩ | ⟨hj, h'⟩
  · exact Or.inl ⟨hj, rfl⟩
  · rcases getElem?_set_cases l i1 a1 h1 j x h' with ⟨hj', rfl⟩ | ⟨hj', h''⟩
    · exact Or.inr (Or.inl ⟨hj, hj', rfl⟩)
    · exact Or.inr (Or.inr ⟨hj, hj', h''⟩)

theorem getElem?_set_append_cases {α : Type} (l : List α) (i1 : Nat) (a1 a2 : α)
    (h1 : i1 < l.length) (j : Nat) (x : α)
    (h : ((l.set i1 a1) ++ [a2])[j]? = some x) :
    (j = i1 ∧ x = a1) ∨ (j = l.length ∧ x = a2) ∨
      (j ≠ i1 ∧ j < l.length ∧ l[j]? = some x) := by
  rw [List.getElem?_append] at h
  by_cases hj : j < (l.set i1 a1).length
  · rw [if_pos hj] at h
    rw [List.length_set] at hj
    rcases getElem?_set_cases l i1 a1 h1 j x h with ⟨hje, rfl⟩ | ⟨hje, h'⟩
    · exact Or.inl ⟨hje, rfl⟩
    · exact Or.inr (Or.inr ⟨hje, hj, h'⟩)
  · rw [if_neg hj] at h
    rw [List.length_set] at hj
    by_cases hj2 : j = l.length
    · subst hj2
      rw [List.length_set] at h
      simp at h
      exact Or.inr (Or.inl ⟨rfl, h.symm⟩)
    · exfalso
      rw [List.length_set] at h
      have : 1 ≤ j - l.length := by omega
      rw [List.getElem?_eq_none (by simp; omega)] at h
      cases h

theorem fix_up_invert_inv (b : Nat) (rest : List Nat) (c : CFG)
    (hInv : FixInv (b :: rest) c) (fp cp : Nat × Edge)
    (hfp : c.edges[fp.1]? = some fp.2) (hfpsrc : fp.2.src = b)
    (hfpft : fp.2.fallthru = true)
    (hcpe : c.edges[cp.1]? = some cp.2) (hcpsrc : cp.2.src = b)
    (hcpne : cp.1 ≠ fp.1) (hcpcrs : cp.2.crossing = false) :
    FixInv rest { c with edges :=
      ((c.edges.set fp.1 { fp.2 with fallthru := false, crossing := true }).set
        cp.1 { cp.2 with fallthru := true, crossing := false }) } := by
  obtain ⟨hR, hnd, hpend, hedge⟩ := hInv
  obtain ⟨hblt, hS2, hF1, hCF⟩ := hpend b (List.mem_cons_self b rest)
  have hbni : b ∉ rest := (List.nodup_cons.1 hnd).1
  have hlenf : fp.1 < c.edges.length := lt_of_getElem?_some hfp
  have hlenc : cp.1 < c.edges.length := lt_of_getElem?_some hcpe
  have hget : ∀ (j : Nat) (e' : Edge),
      (((c.edges.set fp.1 { fp.2 with fallthru := false, crossing := true }).set
        cp.1 { cp.2 with fallthru := true, crossing := false }))[j]? = some e' →
      (j = cp.1 ∧ e' = { cp.2 with fallthru := true, crossing := false }) ∨
      (j ≠ cp.1 ∧ j = fp.1 ∧
        e' = { fp.2 with fallthru := false, crossing := true }) ∨
      (j ≠ cp.1 ∧ j ≠ fp.1 ∧ c.edges[j]? = some e') := fun j e' hj =>
    getElem?_set_set_cases c.edges fp.1 cp.1 _ _ hlenf hlenc j e' hj
  refine ⟨?_, hnd.of_cons, ?_, ?_⟩
  · intro e' he'
    obtain ⟨j, hj⟩ := List.getElem?_of_mem he'
    rcases hget j e' hj with ⟨_, rfl⟩ | ⟨_, _, rfl⟩ | ⟨_, _, hold⟩
    · exact hR cp.2 (List.getElem?_mem hcpe)
    · exact hR fp.2 (List.getElem?_mem hfp)
    · exact hR e' (List.getElem?_mem hold)
  · intro b' hb'
    obtain ⟨hlt', hS2', hF1', hCF'⟩ := hpend b' (List.mem_cons_of_mem _ hb')
    have hbb' : b' ≠ b := fun hx => hbni (hx ▸ hb')
    have hsame : ∀ (j : Nat) (e' : Edge),
        (((c.edges.set fp.1 { fp.2 with fallthru := false, crossing := true }).set
          cp.1 { cp.2 with fallthru := true, crossing := false }))[j]? = some e' →
        e'.src = b' → c.edges[j]? = some e' := by
      intro j e' hj hsrc'
      rcases hget j e' hj with ⟨_, rfl⟩ | ⟨_, _, rfl⟩ | ⟨_, _, hold⟩
      · exact absurd hsrc' (by simp [hcpsrc, hbb'.symm])
      · exact absurd hsrc' (by simp [hfpsrc, hbb'.symm])
      · exact hold
    refine ⟨hlt', ?_, ?_, ?_⟩
    · intro i j k ei ej ek hei hej hek hsi hsj hsk hij hjk
      exact hS2' i j k ei ej ek (hsame i ei hei hsi) (hsame j ej hej hsj)
        (hsame k ek hek hsk) hsi hsj hsk hij hjk
    · intro i j ei ej hei hej hsi hsj hfi hfj
      exact hF1' i j ei ej (hsame i ei hei hsi) (hsame j ej hej hsj)
        hsi hsj hfi hfj
    · intro i e' he' hsrc'
      exact hCF' i e' (hsame i e' he' hsrc') hsrc'
  · intro j e' hj hft'
    rcases hget j e' hj with ⟨_, rfl⟩ | ⟨_, _, rfl⟩ | ⟨_, hjne, hold⟩
    · refine Or.inl ?_
      intro d' hd'
      have hcc := hCF cp.1 cp.2 hcpe hcpsrc
      rw [hcpcrs] at hcc
      unfold crossingCond at hcc
      have hd'' : cp.2.dest = some d' := hd'
      rw [hd''] at hcc
      have heq : partAt c cp.2.src = partAt c d' := by
        simpa [bne_iff_ne] using hcc.symm
      exact heq
    · exact absurd hft' (by simp)
    · rcases hedge j e' hold hft' with hs | hm
      · exact Or.inl (fun d' hd' => hs d' hd')
      · rcases List.mem_cons.1 hm with hsb | hmr
        · exact absurd (hF1 j fp.1 e' fp.2 hold hfp hsb hfpsrc hft' hfpft) hjne
        · exact Or.inr hmr

theorem fix_up_forcenull_inv (b : Nat) (rest : List Nat) (c : CFG) (cur : Block)
    (hcur : c.blocks[b]? = some cur)
    (hInv : FixInv (b :: rest) c) (fp : Nat × Edge)
    (hfp : c.edges[fp.1]? = some fp.2) (hfpsrc : fp.2.src = b)
    (hfpft : fp.2.fallthru = true) :
    FixInv rest { c with
      blocks := c.blocks.set b { cur with footerBarrier := true },
      edges := c.edges.set fp.1 { fp.2 with fallthru := false } } := by
  obtain ⟨hR, hnd, hpend, hedge⟩ := hInv
  obtain ⟨hblt, hS2, hF1, hCF⟩ := hpend b (List.mem_cons_self b rest)
  have hbni : b ∉ rest := (List.nodup_cons.1 hnd).1
  have hlenf : fp.1 < c.edges.length := lt_of_getElem?_some hfp
  have hpart : ∀ j : Nat,
      partAt { c with
        blocks := c.blocks.set b { cur with footerBarrier := true },
        edges := c.edges.set fp.1 { fp.2 with fallthru := false } } j =
      partAt c j := by
    intro j
    exact @partAt_blocks_set c b cur { cur with footerBarrier := true } hcur rfl
      (c.edges.set fp.1 { fp.2 with fallthru := false }) j
  have hget : ∀ (j : Nat) (e' : Edge),
      (c.edges.set fp.1 { fp.2 with fallthru := false })[j]? = some e' →
      (j = fp.1 ∧ e' = { fp.2 with fallthru := false }) ∨
      (j ≠ fp.1 ∧ c.edges[j]? = some e') := fun j e' hj =>
    getElem?_set_cases c.edges fp.1 _ hlenf j e' hj
  refine ⟨?_, hnd.of_cons, ?_, ?_⟩
  · intro e' he'
    obtain ⟨j, hj⟩ := List.getElem?_of_mem he'
    have hbl : (c.blocks.set b { cur with footerBarrier := true }).length =
        c.blocks.length := List.length_set c.blocks b _
    rcases hget j e' hj with ⟨_, rfl⟩ | ⟨_, hold⟩
    · obtain ⟨h1, h2⟩ := hR fp.2 (List.getElem?_mem hfp)
      exact ⟨by rw [hbl]; exact h1, fun d hd => by rw [hbl]; exact h2 d hd⟩
    · obtain ⟨h1, h2⟩ := hR e' (List.getElem?_mem hold)
      exact ⟨by rw [hbl]; exact h1, fun d hd => by rw [hbl]; exact h2 d hd⟩
  · intro b' hb'
    obtain ⟨hlt', hS2', hF1', hCF'⟩ := hpend b' (List.mem_cons_of_mem _ hb')
    have hbb' : b' ≠ b := fun hx => hbni (hx ▸ hb')
    have hsame : ∀ (j : Nat) (e' : Edge),
        (c.edges.set fp.1 { fp.2 with fallthru := false })[j]? = some e' →
        e'.src = b' → c.edges[j]? = some e' := by
      intro j e' hj hsrc'
      rcases hget j e' hj with ⟨_, rfl⟩ | ⟨_, hold⟩
      · exact absurd hsrc' (by simp [hfpsrc, hbb'.symm])
      · exact hold
    refine ⟨by rw [List.length_set]; exact hlt', ?_, ?_, ?_⟩
    · intro i j k ei ej ek hei hej hek hsi hsj hsk hij hjk
      exact hS2' i j k ei ej ek (hsame i ei hei hsi) (hsame j ej hej hsj)
        (hsame k ek hek hsk) hsi hsj hsk hij hjk
    · intro i j ei ej hei hej hsi hsj hfi hfj
      exact hF1' i j ei ej (hsame i ei hei hsi) (hsame j ej hej hsj)
        hsi hsj hfi hfj
    · intro i e' he' hsrc'
      rw [hCF' i e' (hsame i e' he' hsrc') hsrc']
      symm
      exact crossingCond_congr c _ e' e' rfl rfl (hpart e'.src) (fun d _ => hpart d)
  · intro j e' hj hft'
    rcases hget j e' hj with ⟨_, rfl⟩ | ⟨hjne, hold⟩
    · exact absurd hft' (by simp)
    · rcases hedge j e' hold hft' with hs | hm
      · refine Or.inl ?_
        intro d' hd'
        rw [hpart, hpart]
        exact hs d' hd'
      · rcases List.mem_cons.1 hm with hsb | hmr
        · exact absurd (hF1 j fp.1 e' fp.2 hold hfp hsb hfpsrc hft' hfpft) hjne
        · exact Or.inr hmr

theorem fix_up_force_inv (b : Nat) (rest : List Nat) (c : CFG) (cur : Block)
    (hcur : c.blocks[b]? = some cur)
    (hInv : FixInv (b :: rest) c) (fp : Nat × Edge)
    (hfp : c.edges[fp.1]? = some fp.2) (hfpsrc : fp.2.src = b)
    (hfpft : fp.2.fallthru = true) (d0 : Nat) (hdest : fp.2.dest = some d0) :
    FixInv rest
      (CFG.mk
        ((c.blocks.set b (Block.mk cur.partition cur.probablyNeverExecuted
            cur.endsInJump cur.jumpTarget (some c.blocks.length)
            cur.footerBarrier)) ++
          [Block.mk cur.partition cur.probablyNeverExecuted true (some d0)
            cur.rbiNext true])
        ((c.edges.set fp.1
            (Edge.mk c.blocks.length fp.2.dest false true)) ++
          [Edge.mk b (some c.blocks.length) true false])) := by
  obtain ⟨hR, hnd, hpend, hedge⟩ := hInv
  obtain ⟨hblt, hS2, hF1, hCF⟩ := hpend b (List.mem_cons_self b rest)
  have hbni : b ∉ rest := (List.nodup_cons.1 hnd).1
  have hlenf : fp.1 < c.edges.length := lt_of_getElem?_some hfp
  have hblen : ((c.blocks.set b (Block.mk cur.partition cur.probablyNeverExecuted
      cur.endsInJump cur.jumpTarget (some c.blocks.length)
      cur.footerBarrier)) ++
      [Block.mk cur.partition cur.probablyNeverExecuted true (some d0)
        cur.rbiNext true]).length = c.blocks.length + 1 := by
    rw [List.length_append, List.length_set]
    rfl
  have hpartlt : ∀ j : Nat, j < c.blocks.length →
      partAt (CFG.mk
        ((c.blocks.set b (Block.mk cur.partition cur.probablyNeverExecuted
            cur.endsInJump cur.jumpTarget (some c.blocks.length)
            cur.footerBarrier)) ++
          [Block.mk cur.partition cur.probablyNeverExecuted true (some d0)
            cur.rbiNext true])
        ((c.edges.set fp.1
            (Edge.mk c.blocks.length fp.2.dest false true)) ++
          [Edge.mk b (some c.blocks.length) true false])) j = partAt c j := by
    intro j hj
    have h1 := @partAt_append_lt
      (c.blocks.set b (Block.mk cur.partition cur.probablyNeverExecuted
        cur.endsInJump cur.jumpTarget (some c.blocks.length) cur.footerBarrier))
      [Block.mk cur.partition cur.probablyNeverExecuted true (some d0)
        cur.rbiNext true]
      j
      (show j < (c.blocks.set b (Block.mk cur.partition cur.probablyNeverExecuted
          cur.endsInJump cur.jumpTarget (some c.blocks.length)
          cur.footerBarrier)).length
        from by rw [List.length_set]; exact hj)
      ((c.edges.set fp.1 (Edge.mk c.blocks.length fp.2.dest false true)) ++
        [Edge.mk b (some c.blocks.length) true false]) c.edges
    have h2 := @partAt_blocks_set c b cur
      (Block.mk cur.partition cur.probablyNeverExecuted cur.endsInJump
        cur.jumpTarget (some c.blocks.length) cur.footerBarrier)
      hcur rfl c.edges j
    exact h1.trans h2
  have hpartnb : partAt (CFG.mk
      ((c.blocks.set b (Block.mk cur.partition cur.probablyNeverExecuted
          cur.endsInJump cur.jumpTarget (some c.blocks.length)
          cur.footerBarrier)) ++
        [Block.mk cur.partition cur.probablyNeverExecuted true (some d0)
          cur.rbiNext true])
      ((c.edges.set fp.1
          (Edge.mk c.blocks.length fp.2.dest false true)) ++
        [Edge.mk b (some c.blocks.length) true false])) c.blocks.length =
      some cur.partition := by
    have h3 := @partAt_concat_self
      (c.blocks.set b (Block.mk cur.partition cur.probablyNeverExecuted
        cur.endsInJump cur.jumpTarget (some c.blocks.length) cur.footerBarrier))
      (Block.mk cur.partition cur.probablyNeverExecuted true (some d0)
        cur.rbiNext true)
      ((c.edges.set fp.1 (Edge.mk c.blocks.length fp.2.dest false true)) ++
        [Edge.mk b (some c.blocks.length) true false])
    rw [List.length_set] at h3
    exact h3
  have hpartAtB : partAt c b = some cur.partition := by
    unfold partAt
    rw [hcur]
    rfl
  have hget : ∀ (j : Nat) (e' : Edge),
      ((c.edges.set fp.1 (Edge.mk c.blocks.length fp.2.dest false true)) ++
        [Edge.mk b (some c.blocks.length) true false])[j]? = some e' →
      (j = fp.1 ∧ e' = Edge.mk c.blocks.length fp.2.dest false true) ∨
      (j = c.edges.length ∧ e' = Edge.mk b (some c.blocks.length) true false) ∨
      (j ≠ fp.1 ∧ j < c.edges.length ∧ c.edges[j]? = some e') := fun j e' hj =>
    getElem?_set_append_cases c.edges fp.1 _ _ hlenf j e' hj
  refine ⟨?_, hnd.of_cons, ?_, ?_⟩
  · intro e' he'
    obtain ⟨j, hj⟩ := List.getElem?_of_mem he'
    rcases hget j e' hj with ⟨_, rfl⟩ | ⟨_, rfl⟩ | ⟨_, _, hold⟩
    · obtain ⟨_, h2⟩ := hR fp.2 (List.getElem?_mem hfp)
      refine ⟨?_, ?_⟩
      · show c.blocks.length < _
        rw [hblen]
        omega
      · intro d hd
        have := h2 d hd
        rw [hblen]
        omega
    · refine ⟨?_, ?_⟩
      · show b < _
        rw [hblen]
        omega
      · intro d hd
        cases hd
        rw [hblen]
        omega
    · obtain ⟨h1, h2⟩ := hR e' (List.getElem?_mem hold)
      refine ⟨by rw [hblen]; omega, ?_⟩
      intro d hd
      have := h2 d hd
      rw [hblen]
      omega
  · intro b' hb'
    obtain ⟨hlt', hS2', hF1', hCF'⟩ := hpend b' (List.mem_cons_of_mem _ hb')
    have hbb' : b' ≠ b := fun hx => hbni (hx ▸ hb')
    have hsame : ∀ (j : Nat) (e' : Edge),
        ((c.edges.set fp.1 (Edge.mk c.blocks.length fp.2.dest false true)) ++
          [Edge.mk b (some c.blocks.length) true false])[j]? = some e' →
        e'.src = b' → c.edges[j]? = some e' := by
      intro j e' hj hsrc'
      rcases hget j e' hj with ⟨_, rfl⟩ | ⟨_, rfl⟩ | ⟨_, _, hold⟩
      · exfalso
        have hx : c.blocks.length = b' := hsrc'
        omega
      · exfalso
        have hx : b = b' := hsrc'
        exact hbb' hx.symm
      · exact hold
    refine ⟨by rw [hblen]; omega, ?_, ?_, ?_⟩
    · intro i j k ei ej ek hei hej hek hsi hsj hsk hij hjk
      exact hS2' i j k ei ej ek (hsame i ei hei hsi) (hsame j ej hej hsj)
        (hsame k ek hek hsk) hsi hsj hsk hij hjk
    · intro i j ei ej hei hej hsi hsj hfi hfj
      exact hF1' i j ei ej (hsame i ei hei hsi) (hsame j ej hej hsj)
        hsi hsj hfi hfj
    · intro i e' he' hsrc'
      have hold := hsame i e' he' hsrc'
      rw [hCF' i e' hold hsrc']
      symm
      obtain ⟨hs1, hs2⟩ := hR e' (List.getElem?_mem hold)
      refine crossingCond_congr c _ e' e' rfl rfl ?_ ?_
      · rw [hsrc']
        exact hpartlt b' hlt'
      · intro d hd
        exact hpartlt d (hs2 d hd)
  · intro j e' hj hft'
    rcases hget j e' hj with ⟨_, rfl⟩ | ⟨_, rfl⟩ | ⟨hjne, _, hold⟩
    · exact absurd hft' (by simp)
    · refine Or.inl ?_
      intro d' hd'
      cases hd'
      show partAt _ b = partAt _ c.blocks.length
      rw [hpartnb, hpartlt b hblt, hpartAtB]
    · rcases hedge j e' hold hft' with hs | hm
      · refine Or.inl ?_
        intro d' hd'
        obtain ⟨hs1, hs2⟩ := hR e' (List.getElem?_mem hold)
        rw [hpartlt e'.src hs1, hpartlt d' (hs2 d' hd')]
        exact hs d' hd'
      · rcases List.mem_cons.1 hm with hsb | hmr
        · exact absurd (hF1 j fp.1 e' fp.2 hold hfp hsb hfpsrc hft' hfpft) hjne
        · exact Or.inr hmr

theorem invert_candidate_some (invertOk : Nat → Bool) (cur : Block) (b : Nat)
    (cj? : Option (Nat × Edge)) (cp : Nat × Edge)
    (h : invert_candidate invertOk cur b cj? = some cp) :
    cj? = some cp ∧ cp.2.crossing = false := by
  cases cj? with
  | none =>
    simp [invert_candidate] at h
  | some cq =>
    simp only [invert_candidate] at h
    by_cases hcrs : cq.2.crossing = true
    · rw [if_pos hcrs] at h
      cases h
    · rw [if_neg hcrs] at h
      cases hd : cq.2.dest with
      | none =>
        rw [hd] at h
        have h2 : (none : Option (Nat × Edge)) = some cp := h
        cases h2
      | some cd =>
        rw [hd] at h
        have h2 : (if (cur.rbiNext == some cd && invertOk b) = true then some cq
            else none) = some cp := h
        by_cases hio : (cur.rbiNext == some cd && invertOk b) = true
        · rw [if_pos hio] at h2
          cases h2
          exact ⟨rfl, by simpa using hcrs⟩
        · rw [if_neg hio] at h2
          cases h2

theorem fix_up_force_dispatch (forceNull : Nat → Bool) (b : Nat)
    (rest : List Nat) (c : CFG) (cur : Block)
    (hcur : c.blocks[b]? = some cur)
    (hInv : FixInv (b :: rest) c) (fp : Nat × Edge)
    (hfp : c.edges[fp.1]? = some fp.2) (hfpsrc : fp.2.src = b)
    (hfpft : fp.2.fallthru = true) (d0 : Nat) (hdest : fp.2.dest = some d0) :
    FixInv rest (if forceNull b then
      { c with
        blocks := c.blocks.set b { cur with footerBarrier := true },
        edges := c.edges.set fp.1 { fp.2 with fallthru := false } }
    else
      CFG.mk
        ((c.blocks.set b (Block.mk cur.partition cur.probablyNeverExecuted
            cur.endsInJump cur.jumpTarget (some c.blocks.length)
            cur.footerBarrier)) ++
          [Block.mk cur.partition cur.probablyNeverExecuted true (some d0)
            cur.rbiNext true])
        ((c.edges.set fp.1
            (Edge.mk c.blocks.length fp.2.dest false true)) ++
          [Edge.mk b (some c.blocks.length) true false])) := by
  by_cases hfn : (forceNull b) = true
  · rw [if_pos hfn]
    exact fix_up_forcenull_inv b rest c cur hcur hInv fp hfp hfpsrc hfpft
  · rw [if_neg hfn]
    exact fix_up_force_inv b rest c cur hcur hInv fp hfp hfpsrc hfpft d0 hdest

theorem fix_up_core_inv (invertOk forceNull : Nat → Bool) (b : Nat)
    (rest : List Nat) (c : CFG) (cur : Block)
    (hcur : c.blocks[b]? = some cur)
    (hInv : FixInv (b :: rest) c)
    (fp : Nat × Edge) (cj? : Option (Nat × Edge))
    (hfp : c.edges[fp.1]? = some fp.2) (hfpsrc : fp.2.src = b)
    (hfpft : fp.2.fallthru = true)
    (hcj : ∀ cp : Nat × Edge, cj? = some cp →
      c.edges[cp.1]? = some cp.2 ∧ cp.2.src = b ∧ cp.1 ≠ fp.1) :
    FixInv rest (fix_up_core invertOk forceNull c b cur fp cj?) := by
  have hF1 : FallthruAtMostOne c b :=
    (hInv.2.2.1 b (List.mem_cons_self b rest)).2.2.1
  have hCF : CrossingFaithfulAt c b :=
    (hInv.2.2.1 b (List.mem_cons_self b rest)).2.2.2
  have huniq : ∀ (i : Nat) (e : Edge), c.edges[i]? = some e → e.src = b →
      e.fallthru = true → i = fp.1 ∧ e = fp.2 := by
    intro i e hi hsrc hft
    have hieq := hF1 i fp.1 e fp.2 hi hfp hsrc hfpsrc hft hfpft
    subst hieq
    rw [hfp] at hi
    exact ⟨rfl, (Option.some.inj hi).symm⟩
  unfold fix_up_core
  cases hdest : fp.2.dest with
  | none =>
    refine FixInv_unchanged b rest c hInv ?_
    intro i e hi hsrc hft
    obtain ⟨_, rfl⟩ := huniq i e hi hsrc hft
    intro d hd
    rw [hdest] at hd
    cases hd
  | some d0 =>
    by_cases hcrs : fp.2.crossing = true
    · rw [if_pos hcrs]
      cases hinvc : invert_candidate invertOk cur b cj? with
      | some cp =>
        obtain ⟨hcjeq, hcpcrs⟩ :=
          invert_candidate_some invertOk cur b cj? cp hinvc
        obtain ⟨hcpe, hcpsrc, hcpne⟩ := hcj cp hcjeq
        exact fix_up_invert_inv b rest c hInv fp cp hfp hfpsrc hfpft
          hcpe hcpsrc hcpne hcpcrs
      | none =>
        exact fix_up_force_dispatch forceNull b rest c cur hcur hInv fp
          hfp hfpsrc hfpft d0 hdest
    · rw [if_neg hcrs]
      refine FixInv_unchanged b rest c hInv ?_
      intro i e hi hsrc hft
      obtain ⟨_, rfl⟩ := huniq i e hi hsrc hft
      intro d hd
      have hcc := hCF fp.1 fp.2 hfp hfpsrc
      have hcf : fp.2.crossing = false := by
        cases hx : fp.2.crossing
        · rfl
        · exact absurd hx hcrs
      rw [hcf] at hcc
      unfold crossingCond at hcc
      rw [hd] at hcc
      simpa [bne_iff_ne] using hcc.symm

theorem fix_up_step_inv (invertOk forceNull : Nat → Bool) (b : Nat)
    (rest : List Nat) (c : CFG) (hInv : FixInv (b :: rest) c) :
    FixInv rest (fix_up_step invertOk forceNull c b) := by
  obtain ⟨hblt, hS2, hF1, hCF⟩ := hInv.2.2.1 b (List.mem_cons_self b rest)
  have hcurEq : c.blocks[b]? = some (c.blocks[b]) :=
    List.getElem?_eq_getElem hblt
  have hlen2 : (succPairs c b).length ≤ 2 := succPairs_length_le_two hS2
  have hslot : ∀ (i : Nat) (e : Edge), c.edges[i]? = some e → e.src = b →
      (succPairs c b)[0]? = some (i, e) ∨ (succPairs c b)[1]? = some (i, e) :=
    fun i e hi hs => mem_len_le_two (mem_succPairs.2 ⟨hi, hs⟩) hlen2
  cases h0 : (succPairs c b)[0]? with
  | none =>
    have hstep : fix_up_step invertOk forceNull c b = c := by
      unfold fix_up_step
      rw [hcurEq, h0]
    rw [hstep]
    refine FixInv_unchanged b rest c hInv ?_
    intro i e hi hs hft
    rcases hslot i e hi hs with hx | hx
    · rw [h0] at hx
      cases hx
    · exfalso
      have hl1 := lt_of_getElem?_some hx
      have hl0 := List.getElem?_eq_none_iff.1 h0
      omega
  | some p1 =>
    have hm1 := mem_succPairs.1 (List.getElem?_mem h0)
    by_cases hft1 : p1.2.fallthru = true
    · have hstep : fix_up_step invertOk forceNull c b =
          fix_up_core invertOk forceNull c b (c.blocks[b]) p1
            (succPairs c b)[1]? := by
        unfold fix_up_step
        rw [hcurEq, h0]
        simp [hft1]
      rw [hstep]
      refine fix_up_core_inv invertOk forceNull b rest c _ hcurEq hInv p1
        (succPairs c b)[1]? hm1.1 hm1.2 hft1 ?_
      intro cp hcp
      have hm2 := mem_succPairs.1 (List.getElem?_mem hcp)
      have hl0 := lt_of_getElem?_some h0
      have hl1 := lt_of_getElem?_some hcp
      have hlt := (List.pairwise_iff_getElem.1 (succPairs_pairwise c b))
        0 1 hl0 hl1 (by omega)
      have he0 : (succPairs c b)[0] = p1 := by
        have hq := List.getElem?_eq_getElem hl0
        rw [h0] at hq
        exact (Option.some.inj hq).symm
      have he1 : (succPairs c b)[1] = cp := by
        have hq := List.getElem?_eq_getElem hl1
        rw [hcp] at hq
        exact (Option.some.inj hq).symm
      rw [he0, he1] at hlt
      exact ⟨hm2.1, hm2.2, by omega⟩
    · cases h1 : (succPairs c b)[1]? with
      | none =>
        have hstep : fix_up_step invertOk forceNull c b = c := by
          unfold fix_up_step
          rw [hcurEq, h0, h1]
          simp [hft1]
        rw [hstep]
        refine FixInv_unchanged b rest c hInv ?_
        intro i e hi hs hft
        rcases hslot i e hi hs with hx | hx
        · rw [h0] at hx
          cases hx
          exact absurd hft hft1
        · rw [h1] at hx
          cases hx
      | some p2 =>
        have hm2 := mem_succPairs.1 (List.getElem?_mem h1)
        by_cases hft2 : p2.2.fallthru = true
        · have hstep : fix_up_step invertOk forceNull c b =
              fix_up_core invertOk forceNull c b (c.blocks[b]) p2
                (some p1) := by
            unfold fix_up_step
            rw [hcurEq, h0, h1]
            simp [hft1, hft2]
          rw [hstep]
          refine fix_up_core_inv invertOk forceNull b rest c _ hcurEq hInv p2
            (some p1) hm2.1 hm2.2 hft2 ?_
          intro cp hcp
          cases hcp
          have hl0 := lt_of_getElem?_some h0
          have hl1 := lt_of_getElem?_some h1
          have hlt := (List.pairwise_iff_getElem.1 (succPairs_pairwise c b))
            0 1 hl0 hl1 (by omega)
          have he0 : (succPairs c b)[0] = p1 := by
            have hq := List.getElem?_eq_getElem hl0
            rw [h0] at hq
            exact (Option.some.inj hq).symm
          have he1 : (succPairs c b)[1] = p2 := by
            have hq := List.getElem?_eq_getElem hl1
            rw [h1] at hq
            exact (Option.some.inj hq).symm
          rw [he0, he1] at hlt
          exact ⟨hm1.1, hm1.2, by omega⟩
        · have hstep : fix_up_step invertOk forceNull c b = c := by
            unfold fix_up_step
            rw [hcurEq, h0, h1]
            simp [hft1, hft2]
          rw [hstep]
          refine FixInv_unchanged b rest c hInv ?_
          intro i e hi hs hft
          rcases hslot i e hi hs with hx | hx
          · rw [h0] at hx
            cases hx
            exact absurd hft hft1
          · rw [h1] at hx
            cases hx
            exact absurd hft hft2

theorem fix_up_fold_inv (invertOk forceNull : Nat → Bool) :
    ∀ (todo : List Nat) (c : CFG), FixInv todo c →
      FixInv [] (todo.foldl (fix_up_step invertOk forceNull) c) := by
  intro todo
  induction todo with
  | nil => intro c h; exact h
  | cons b rest ih =>
    intro c h
    rw [List.foldl_cons]
    exact ih _ (fix_up_step_inv invertOk forceNull b rest c h)

/-- C2: after the two PartitionFixup phases — `add_labels_and_missing_jumps`
run over the crossing edges collected by
`find_rarely_executed_basic_blocks_and_crossing_edges`, then
`fix_up_fall_thru_edges` — no edge carrying the FALLTHRU flag has its
source and destination in different partitions.  The CFG is assumed to
obey RTL's successor discipline: every block has at most two successor
edges and at most one fall-through edge. -/
theorem fixup_no_crossing_fallthru (invertOk forceNull : Nat → Bool) (c : CFG)
    (hR : Ranged c)
    (hS : ∀ b, b < c.blocks.length → succCount c b ≤ 2)
    (hF : ∀ b, b < c.blocks.length → (fallthruPairs c b).length ≤ 1)
    (c2 : CFG)
    (hok : add_labels_and_missing_jumps
        (find_rarely_executed_basic_blocks_and_crossing_edges c).1
        (find_rarely_executed_basic_blocks_and_crossing_edges c).2 =
      Except.ok c2) :
    ∀ e ∈ (fix_up_fall_thru_edges invertOk forceNull c2).edges,
      e.fallthru = true → ∀ d, e.dest = some d →
        partAt (fix_up_fall_thru_edges invertOk forceNull c2) e.src =
          partAt (fix_up_fall_thru_edges invertOk forceNull c2) d := by
  have hrel : AddLabelsRel
      (find_rarely_executed_basic_blocks_and_crossing_edges c).1 c2 :=
    add_labels_rel _ _ _ hok
  have hR1 := Ranged_find_rarely hR
  have hR2 : Ranged c2 := Ranged_of_rel hrel hR1
  have hlen : c2.blocks.length = c.blocks.length := by
    rw [hrel.1, find_rarely_blocks_length]
  have hCF1 := find_rarely_faithful c hR
  have hInit : FixInv (List.range c2.blocks.length) c2 := by
    refine ⟨hR2, List.nodup_range _, ?_, ?_⟩
    · intro b hb
      have hblt : b < c2.blocks.length := List.mem_range.1 hb
      have hblt0 : b < c.blocks.length := by omega
      exact ⟨hblt,
        succAtMostTwo_of_rel hrel
          (succAtMostTwo_find_rarely (succAtMostTwo_of_count (hS b hblt0))),
        fallthruAtMostOne_of_rel hrel
          (fallthruAtMostOne_find_rarely
            (fallthruAtMostOne_of_count (hF b hblt0))),
        crossingFaithfulAt_of_rel hrel hCF1⟩
    · intro i e hi _
      exact Or.inr (List.mem_range.2 (hR2 e (List.getElem?_mem hi)).1)
  have hFin : FixInv [] (fix_up_fall_thru_edges invertOk forceNull c2) :=
    fix_up_fold_inv invertOk forceNull (List.range c2.blocks.length) c2 hInit
  intro e he hft d hd
  obtain ⟨i, hi⟩ := List.getElem?_of_mem he
  rcases hFin.2.2.2 i e hi hft with hsafe | habs
  · exact hsafe d hd
  · cases habs

/-- Witness for `fixup_no_crossing_fallthru` on `fixupDemo`: its labelled
form is `fixupDemoLabeled`, whose surviving fall-through edge 0→1 has both
endpoints in the hot partition after `fix_up_fall_thru_edges`. -/
theorem fixup_no_crossing_fallthru_witness :
    partAt (fix_up_fall_thru_edges (fun _ => true) (fun _ => false)
      fixupDemoLabeled) 0 =
    partAt (fix_up_fall_thru_edges (fun _ => true) (fun _ => false)
      fixupDemoLabeled) 1 :=
  fixup_no_crossing_fallthru (fun _ => true) (fun _ => false) fixupDemo
    (by decide) (by decide) (by decide) fixupDemoLabeled (by rfl)
    ⟨0, some 1, true, false⟩ (by decide) rfl 1 rfl
